import Mathlib

/-!
# Verification of the PRAM group/population core (pram)

A shallow embedding, in Lean 4, of the mass-carrying-group machinery of the
`pram` package: Python dictionaries become insertion-ordered association
lists, masses become exact rationals, fallible operations return `Except`,
and the stateful population/simulation loop becomes explicit state passing.
Each embedded definition mirrors one Python function of the source
(`pram/entity.py`, `pram/pop.py`, `pram/sim.py`); theorems at the end settle
the specification claims against these definitions.

Repository code that is imported by the sources but absent from the snapshot
(`pram/rule.py`, and the `Group.freeze` method invoked by
`GroupPopulation.add_group`) and the external `iteround.saferound` routine
are modelled from the specification text; every such definition carries a
doc comment starting with `Modelled from the spec:`.
-/

namespace Pram

/-! ## Python values

Attribute and relation values occurring in the modelled programs: strings,
integers, booleans, and entity hashes (`Site`/`Resource` objects are replaced
by their content hash once a group is population-bound; `vSite` stands for a
still-unresolved `Site` object reference, identified by its content hash). -/

inductive Val where
  | vS (s : String)
  | vI (i : Int)
  | vB (b : Bool)
  | vH (h : Nat)
  | vSite (h : Nat)
deriving DecidableEq, Repr

/-! ## Python dictionaries

A Python `dict` preserves insertion order; we model it as an association
list in insertion order.  `dSet` mirrors `d[k] = v` (update in place if the
key exists, append otherwise), `dUpdate` mirrors `d.update(other)`, `dDel`
mirrors key deletion, and `dGet` mirrors `d.get(k)`. -/

abbrev Dict := List (String × Val)

def dGet (d : Dict) (k : String) : Option Val :=
  match d.find? (fun kv => kv.1 = k) with
  | some kv => some kv.2
  | none => none

def dHasKey (d : Dict) (k : String) : Bool :=
  (dGet d k).isSome

def dSet (d : Dict) (k : String) (v : Val) : Dict :=
  if dHasKey d k then d.map (fun kv => if kv.1 = k then (k, v) else kv)
  else d ++ [(k, v)]

def dUpdate (d other : Dict) : Dict :=
  other.foldl (fun acc kv => dSet acc kv.1 kv.2) d

def dDel (d : Dict) (ks : List String) : Dict :=
  d.filter (fun kv => !ks.contains kv.1)

/-- Python `a.items() <= b.items()` on dicts: every key/value pair of `a`
occurs in `b` (used by `Group._has_attr` for the `VOID` check). -/
def dSubset (a b : Dict) : Bool :=
  a.all (fun kv => dGet b kv.1 = some kv.2)

/-- Python `a == b` on dicts: order-insensitive key/value equality. -/
def dEqMap (a b : Dict) : Bool :=
  dSubset a b && dSubset b a

def dKeys (d : Dict) : List String := d.map Prod.fst

/-! ## Resource (`pram/entity.py`, class `Resource`)

`capacity` starts at 0; `capacity_max` is given at construction.  The
methods below mirror `allocate_any`, `allocate_all`, `can_accommodate_all`,
`can_accommodate_any` and `release` line by line. -/

structure Resource where
  capacity : Int
  capacity_max : Int
deriving DecidableEq, Repr

namespace Resource

/-- `Resource(name, capacity_max)`: capacity starts at zero. -/
def init (capacity_max : Int) : Resource :=
  { capacity := 0, capacity_max := capacity_max }

/-- `allocate_any(n)`: returns the updated resource and the method's return
value.  The source computes `n_accommodated = self.capacity_max - n` and adds
it to `capacity` (entity.py:228-239). -/
def allocate_any (r : Resource) (n : Int) : Resource × Int :=
  let n_accommodated := r.capacity_max - n
  ({ r with capacity := r.capacity + n_accommodated }, n - n_accommodated)

/-- `allocate_all(n)` (entity.py:241-255). -/
def allocate_all (r : Resource) (n : Int) : Resource × Bool :=
  if r.capacity + n ≤ r.capacity_max then
    ({ r with capacity := r.capacity + n }, true)
  else
    (r, false)

/-- `can_accommodate_all(n)` (entity.py:257-267). -/
def can_accommodate_all (r : Resource) (n : Int) : Bool :=
  r.capacity + n ≤ r.capacity_max

/-- `can_accommodate_any(n)` (entity.py:269-279); ignores `n`. -/
def can_accommodate_any (r : Resource) (_n : Int) : Bool :=
  r.capacity < r.capacity_max

/-- `release(n)` (entity.py:302-315). -/
def release (r : Resource) (n : Int) : Resource :=
  if r.capacity = 0 then r
  else { r with capacity := max 0 (r.capacity - n) }

/-- One call of a capacity-changing method with its integer argument. -/
inductive Call where
  | any (n : Int)
  | all (n : Int)
  | rel (n : Int)
deriving DecidableEq, Repr

def step (r : Resource) : Call → Resource
  | .any n => (r.allocate_any n).1
  | .all n => (r.allocate_all n).1
  | .rel n => r.release n

def runCalls (r : Resource) (cs : List Call) : Resource :=
  cs.foldl step r

end Resource

end Pram

namespace Pram

/-! ## Rounding

`Group.split` rounds masses with `iteround.saferound(m_lst, 0)` unless the
fractional-mass pragma is set.  `iteround` is an external dependency, so the
two definitions below are modelled from the specification. -/

/-- Python's built-in `round` to an integer: nearest integer, halves to the
even neighbour. -/
def pyRound (x : ℚ) : Int :=
  if x - ⌊x⌋ < 1/2 then ⌊x⌋
  else if 1/2 < x - ⌊x⌋ then ⌊x⌋ + 1
  else if 2 ∣ ⌊x⌋ then ⌊x⌋ else ⌊x⌋ + 1

/-- Working entry of the rounding loop: current integer value, fractional
remainder of the original, and whether this entry already received one of
the leftover units. -/
structure LR where
  val : Int
  rem : ℚ
  bumped : Bool
deriving DecidableEq, Repr, Inhabited

/-- Remainders of the entries still eligible for a leftover unit. -/
def urems (l : List LR) : List ℚ :=
  (l.filter (fun e => !e.bumped)).map LR.rem

/-- Give one unit to the first eligible entry whose remainder is `m`. -/
def bumpFirst : List LR → ℚ → List LR
  | [], _ => []
  | e :: rest, m =>
    if e.bumped = false ∧ e.rem = m then { e with val := e.val + 1, bumped := true } :: rest
    else e :: bumpFirst rest m

/-- Give one leftover unit to the eligible entry with the largest remainder,
earliest entry first on ties. -/
def lrBump (l : List LR) : List LR :=
  match (urems l).max? with
  | none => l
  | some m => bumpFirst l m

/-- Modelled from the spec: `iteround.saferound(values, 0)` — the
total-preserving largest-remainder rounding used by `Group.split`
(entity.py:1900).  Each value is rounded down and the leftover units
(difference between the Python-round of the exact sum and the sum of the
floors) are distributed one by one to the largest fractional remainders,
ties broken by input order. -/
def saferound (xs : List ℚ) : List Int :=
  let T := pyRound xs.sum
  let start := xs.map (fun x => LR.mk ⌊x⌋ (x - ⌊x⌋) false)
  let r := (T - (start.map LR.val).sum).toNat
  (lrBump^[r] start).map LR.val

/-! ## Mass splitting (`Group.split`, entity.py:1860-1931)

Step (1) of `split` fills `m_lst` (pre-initialised to zeros): every spec but
the last contributes `m = self.m * s.p`; the last spec processed gets the
complement `m = self.m - m_sum` (its own `p` is ignored); the loop breaks as
soon as the running probability sum equals 1, leaving the remaining entries
at zero.  `splitGo` is that loop with the accumulators explicit. -/

def splitGo (M : ℚ) (pSum mSum : ℚ) : List ℚ → List ℚ
  | [] => []
  | [_p] => [M - mSum]
  | p :: q :: rest =>
    let m := M * p
    if pSum + p = 1 then m :: List.replicate (q :: rest).length 0
    else m :: splitGo M (pSum + p) (mSum + m) (q :: rest)

/-- The list `m_lst` computed by step (1) of `Group.split`. -/
def splitMassList (M : ℚ) (ps : List ℚ) : List ℚ :=
  splitGo M 0 0 ps

/-! ## Groups and split specs -/

/-- `GroupSplitSpec` (entity.py:792-824).  `p` is validated to lie in
`[0,1]` at construction; the delete collections are Python sets, of which
only membership matters, so lists suffice. -/
structure GroupSplitSpec where
  p : ℚ
  attr_set : Dict := []
  attr_del : List String := []
  rel_set : Dict := []
  rel_del : List String := []
deriving DecidableEq, Repr

/-- A `Group` (entity.py:873-948): mass, attributes, relations, the lazily
cached content hash, and whether the group is population-bound (`self.pop`
is set; the name is a non-identifying label we drop). -/
structure SGroup where
  m : ℚ
  attr : Dict := []
  rel : Dict := []
  registered : Bool := false
  hashCache : Option Nat := none
deriving DecidableEq, Repr

/-- `Group.gen_dict(d_in, d_upd, k_del)` (entity.py:1436-1475): copy of
`d_in` updated with `d_upd`, then the keys of `k_del` removed. -/
def gen_dict (d_in d_upd : Dict) (k_del : List String) : Dict :=
  if d_upd.isEmpty && k_del.isEmpty then d_in
  else dDel (dUpdate d_in d_upd) k_del

/-- Steps (1)-(2) of `Group.split`: the mass list, rounded by `saferound`
unless the fractional-mass pragma is set. -/
def splitMasses (fracMass : Bool) (M : ℚ) (ps : List ℚ) : List ℚ :=
  if fracMass then splitMassList M ps
  else (saferound (splitMassList M ps)).map (fun z : ℤ => (z : ℚ))

/-- `Group.split(specs)` (entity.py:1860-1931).  `fracMass` stands for
`self.pop.sim.get_pragma_fractional_mass()`.  Destination groups with zero
mass are skipped; each survivor gets the source's attributes/relations with
the spec's set-map applied and delete-keys removed.  (Entity-valued
`rel_set` entries are resolved to their hashes before the group is built; in
the embedding `Dict` values already carry hashes, and the side registration
of the `Site` object in the population does not affect the destinations.) -/
def SGroup.split (fracMass : Bool) (g : SGroup) (specs : List GroupSplitSpec) :
    List SGroup :=
  (specs.zip (splitMasses fracMass g.m (specs.map GroupSplitSpec.p))).filterMap fun sm =>
    if sm.2 = 0 then none
    else some { m := sm.2,
                attr := gen_dict g.attr sm.1.attr_set sm.1.attr_del,
                rel := gen_dict g.rel sm.1.rel_set sm.1.rel_del }

end Pram

namespace Pram

/-! ## Lemmas: the split mass list -/

theorem splitGo_length (M : ℚ) :
    ∀ (ps : List ℚ) (pSum mSum : ℚ), (splitGo M pSum mSum ps).length = ps.length
  | [], _, _ => rfl
  | [_p], _, _ => rfl
  | p :: q :: rest, pSum, mSum => by
    by_cases h : pSum + p = 1
    · simp [splitGo, h]
    · simpa [splitGo, h] using splitGo_length M (q :: rest) (pSum + p) (mSum + M * p)

theorem splitMassList_length (M : ℚ) (ps : List ℚ) :
    (splitMassList M ps).length = ps.length :=
  splitGo_length M ps 0 0

theorem sum_replicate_zero (n : ℕ) : (List.replicate n (0 : ℚ)).sum = 0 := by
  induction n with
  | zero => rfl
  | succ k ih => simp [List.replicate_succ, ih]

theorem splitGo_sum (M : ℚ) :
    ∀ (ps : List ℚ) (pSum mSum : ℚ), ps ≠ [] → mSum = M * pSum →
      (splitGo M pSum mSum ps).sum = M - mSum
  | [], _, _, hne, _ => absurd rfl hne
  | [_p], pSum, mSum, _, _ => by simp [splitGo]
  | p :: q :: rest, pSum, mSum, _, hinv => by
    by_cases h : pSum + p = 1
    · have hp : p = 1 - pSum := by linarith
      simp only [splitGo, h, if_pos, List.sum_cons, sum_replicate_zero]
      rw [hp, hinv]; ring
    · have ih := splitGo_sum M (q :: rest) (pSum + p) (mSum + M * p)
        (by simp) (by rw [hinv]; ring)
      simp only [splitGo, h, if_neg, not_false_iff, List.sum_cons, ih]
      ring

/-- Step (1) of `Group.split` conserves mass exactly: the computed mass list
sums to the source mass for every non-empty spec list. -/
theorem splitMassList_sum (M : ℚ) (ps : List ℚ) (h : ps ≠ []) :
    (splitMassList M ps).sum = M :=
  by simpa using splitGo_sum M ps 0 0 h (by ring)

/-! ## Lemmas: total-preserving rounding -/

theorem pyRound_bounds (x : ℚ) : ⌊x⌋ ≤ pyRound x ∧ pyRound x ≤ ⌊x⌋ + 1 := by
  unfold pyRound
  split_ifs <;> omega

theorem floorSum_le (xs : List ℚ) : ((xs.map fun x => ⌊x⌋).sum : ℚ) ≤ xs.sum := by
  induction xs with
  | nil => simp
  | cons a l ih =>
    simp only [List.map_cons, List.sum_cons, Int.cast_add]
    exact add_le_add (Int.floor_le a) ih

theorem le_floorSum_add (xs : List ℚ) :
    xs.sum ≤ ((xs.map fun x => ⌊x⌋).sum : ℚ) + xs.length := by
  induction xs with
  | nil => simp
  | cons a l ih =>
    simp only [List.map_cons, List.sum_cons, Int.cast_add, List.length_cons]
    have ha : a < (⌊a⌋ : ℚ) + 1 := Int.lt_floor_add_one a
    push_cast
    push_cast at ih
    linarith

/-- Number of entries still eligible for a leftover unit. -/
def unbumpedCount (l : List LR) : ℕ := (urems l).length

theorem bumpFirst_cons (e : LR) (rest : List LR) (m : ℚ) :
    bumpFirst (e :: rest) m =
      if e.bumped = false ∧ e.rem = m
        then { e with val := e.val + 1, bumped := true } :: rest
        else e :: bumpFirst rest m := rfl

theorem bumpFirst_length (m : ℚ) : ∀ l : List LR, (bumpFirst l m).length = l.length
  | [] => rfl
  | e :: rest => by
    rw [bumpFirst_cons]
    by_cases h : e.bumped = false ∧ e.rem = m
    · rw [if_pos h]
      simp
    · rw [if_neg h]
      simp [bumpFirst_length m rest]

theorem bumpFirst_sum (m : ℚ) :
    ∀ l : List LR, (∃ e ∈ l, e.bumped = false ∧ e.rem = m) →
      ((bumpFirst l m).map LR.val).sum = (l.map LR.val).sum + 1
  | [], h => by simp at h
  | e :: rest, h => by
    rw [bumpFirst_cons]
    by_cases hc : e.bumped = false ∧ e.rem = m
    · rw [if_pos hc]
      simp only [List.map_cons, List.sum_cons, LR.val]
      ring
    · have hrest : ∃ e' ∈ rest, e'.bumped = false ∧ e'.rem = m := by
        rcases h with ⟨e', he', hb, hr⟩
        rcases List.mem_cons.mp he' with heq | hmem
        · exact absurd (heq ▸ ⟨hb, hr⟩) hc
        · exact ⟨e', hmem, hb, hr⟩
      rw [if_neg hc]
      simp only [List.map_cons, List.sum_cons, bumpFirst_sum m rest hrest]
      ring

theorem bumpFirst_count (m : ℚ) :
    ∀ l : List LR, (∃ e ∈ l, e.bumped = false ∧ e.rem = m) →
      unbumpedCount (bumpFirst l m) + 1 = unbumpedCount l
  | [], h => by simp at h
  | e :: rest, h => by
    rw [unbumpedCount, unbumpedCount, urems, urems, bumpFirst_cons]
    by_cases hc : e.bumped = false ∧ e.rem = m
    · rw [if_pos hc]
      simp [hc.1]
    · have hrest : ∃ e' ∈ rest, e'.bumped = false ∧ e'.rem = m := by
        rcases h with ⟨e', he', hb, hr⟩
        rcases List.mem_cons.mp he' with heq | hmem
        · exact absurd (heq ▸ ⟨hb, hr⟩) hc
        · exact ⟨e', hmem, hb, hr⟩
      have ih := bumpFirst_count m rest hrest
      rw [unbumpedCount, unbumpedCount, urems, urems] at ih
      rw [if_neg hc]
      by_cases hb : e.bumped
      · simpa [hb] using ih
      · simpa [hb] using ih

theorem mem_urems_exists (l : List LR) (m : ℚ) (h : m ∈ urems l) :
    ∃ e ∈ l, e.bumped = false ∧ e.rem = m := by
  rcases List.mem_map.mp h with ⟨e, hmem, hrem⟩
  rcases List.mem_filter.mp hmem with ⟨hl, hb⟩
  exact ⟨e, hl, by simpa using hb, hrem⟩

theorem lrBump_sum_count (l : List LR) (h : 0 < unbumpedCount l) :
    ((lrBump l).map LR.val).sum = (l.map LR.val).sum + 1 ∧
      unbumpedCount (lrBump l) + 1 = unbumpedCount l := by
  have hne : urems l ≠ [] := by
    intro hnil
    rw [unbumpedCount, hnil] at h
    exact absurd h (by simp)
  obtain ⟨m, hsome⟩ : ∃ m, (urems l).max? = some m := by
    cases hmax : (urems l).max? with
    | none => exact absurd (List.max?_eq_none_iff.mp hmax) hne
    | some m => exact ⟨m, rfl⟩
  have hmem : m ∈ urems l := List.max?_mem max_choice hsome
  have hex := mem_urems_exists l m hmem
  have hb : lrBump l = bumpFirst l m := by unfold lrBump; rw [hsome]
  rw [hb]
  exact ⟨bumpFirst_sum m l hex, bumpFirst_count m l hex⟩

theorem lrBump_iterate_sum :
    ∀ (r : ℕ) (l : List LR), r ≤ unbumpedCount l →
      ((lrBump^[r] l).map LR.val).sum = (l.map LR.val).sum + r
  | 0, l, _ => by simp
  | r + 1, l, h => by
    have hpos : 0 < unbumpedCount l := lt_of_lt_of_le (Nat.succ_pos r) h
    obtain ⟨hsum, hcount⟩ := lrBump_sum_count l hpos
    have hr : r ≤ unbumpedCount (lrBump l) := by omega
    rw [Function.iterate_succ_apply, lrBump_iterate_sum r (lrBump l) hr, hsum]
    push_cast
    ring

theorem lt_floorSum_add (a : ℚ) (l : List ℚ) :
    (a :: l).sum < (((a :: l).map fun x => ⌊x⌋).sum : ℚ) + (a :: l).length := by
  simp only [List.map_cons, List.sum_cons, Int.cast_add, List.length_cons]
  have h := le_floorSum_add l
  have ha := Int.lt_floor_add_one a
  push_cast
  push_cast at h
  linarith

/-- The modelled `saferound` is total-preserving exactly as the spec states:
the rounded values sum to the Python-round of the exact sum. -/
theorem saferound_sum (xs : List ℚ) : (saferound xs).sum = pyRound xs.sum := by
  classical
  rcases eq_or_ne xs [] with rfl | hne
  · have hfix : ∀ n, lrBump^[n] ([] : List LR) = [] :=
      fun n => Function.iterate_fixed rfl n
    simp [saferound, hfix, pyRound]
  set T := pyRound xs.sum with hT
  set start := xs.map (fun x => LR.mk ⌊x⌋ (x - ⌊x⌋) false) with hstart
  have hvals : start.map LR.val = xs.map fun x => ⌊x⌋ := by
    simp [hstart, Function.comp]
  have hcount : unbumpedCount start = xs.length := by
    have hself : start.filter (fun e => !e.bumped) = start := by
      apply List.filter_eq_self.mpr
      intro e he
      rcases List.mem_map.mp (hstart ▸ he) with ⟨x, -, hx⟩
      rw [← hx]
      rfl
    rw [unbumpedCount, urems, hself, List.length_map, hstart, List.length_map]
  have hfl : ((xs.map fun x => ⌊x⌋).sum : ℚ) ≤ xs.sum := floorSum_le xs
  have hlow : (xs.map fun x => ⌊x⌋).sum ≤ T := by
    have h1 : (xs.map fun x => ⌊x⌋).sum ≤ ⌊xs.sum⌋ := Int.le_floor.mpr hfl
    exact le_trans h1 (pyRound_bounds xs.sum).1
  have hhigh : T ≤ (xs.map fun x => ⌊x⌋).sum + xs.length := by
    obtain ⟨a, l, rfl⟩ := List.exists_cons_of_ne_nil hne
    have h2 := lt_floorSum_add a l
    have h3 : ⌊(a :: l).sum⌋ < ((a :: l).map fun x => ⌊x⌋).sum + (a :: l).length := by
      have hq : ((⌊(a :: l).sum⌋ : ℤ) : ℚ) <
          ((((a :: l).map fun x => ⌊x⌋).sum + ((a :: l).length : ℤ) : ℤ) : ℚ) := by
        have hfle := Int.floor_le (a :: l).sum
        push_cast
        push_cast at h2
        linarith
      exact_mod_cast hq
    have h4 : T ≤ ⌊(a :: l).sum⌋ + 1 := (pyRound_bounds (a :: l).sum).2
    omega
  set r := (T - (start.map LR.val).sum).toNat with hr
  have hge : (0:ℤ) ≤ T - (start.map LR.val).sum := by rw [hvals]; omega
  have hrval : (r : ℤ) = T - (xs.map fun x => ⌊x⌋).sum := by
    rw [hr, Int.toNat_of_nonneg hge, hvals]
  have hrle : r ≤ unbumpedCount start := by
    rw [hcount]
    have hc : (r : ℤ) ≤ (xs.length : ℤ) := by omega
    exact_mod_cast hc
  have hmain := lrBump_iterate_sum r start hrle
  calc (saferound xs).sum = ((lrBump^[r] start).map LR.val).sum := rfl
    _ = (start.map LR.val).sum + r := hmain
    _ = T := by rw [hvals]; omega

theorem lrBump_length (l : List LR) : (lrBump l).length = l.length := by
  unfold lrBump
  cases (urems l).max? with
  | none => rfl
  | some m => exact bumpFirst_length m l

theorem lrBump_iterate_length (r : ℕ) (l : List LR) :
    (lrBump^[r] l).length = l.length := by
  induction r with
  | zero => rfl
  | succ k ih =>
    rw [Function.iterate_succ_apply']
    rw [lrBump_length, ih]

theorem saferound_length (xs : List ℚ) : (saferound xs).length = xs.length := by
  simp [saferound, lrBump_iterate_length]

theorem castSum (l : List ℤ) : ((l.map fun z : ℤ => (z : ℚ)).sum) = (l.sum : ℚ) := by
  induction l with
  | nil => simp
  | cons a t ih =>
    rw [List.map_cons, List.sum_cons, List.sum_cons, ih]
    push_cast
    ring

theorem splitMasses_true (M : ℚ) (ps : List ℚ) :
    splitMasses true M ps = splitMassList M ps := rfl

theorem splitMasses_false (M : ℚ) (ps : List ℚ) :
    splitMasses false M ps = (saferound (splitMassList M ps)).map (fun z : ℤ => (z : ℚ)) := rfl

/-! ## Lemmas: emitted destination groups -/

theorem splitEmit_mass_sum (g : SGroup) :
    ∀ l : List (GroupSplitSpec × ℚ),
      (((l.filterMap fun sm =>
          if sm.2 = 0 then none
          else some ({ m := sm.2,
                       attr := gen_dict g.attr sm.1.attr_set sm.1.attr_del,
                       rel := gen_dict g.rel sm.1.rel_set sm.1.rel_del } : SGroup))).map
        SGroup.m).sum = (l.map Prod.snd).sum
  | [] => rfl
  | sm :: rest => by
    by_cases hz : sm.2 = 0
    · rw [List.filterMap_cons_none (by rw [if_pos hz]), splitEmit_mass_sum g rest,
        List.map_cons, List.sum_cons, hz, zero_add]
    · rw [List.filterMap_cons_some (by rw [if_neg hz]), List.map_cons,
        List.sum_cons, splitEmit_mass_sum g rest, List.map_cons, List.sum_cons]

theorem split_mass_sum_frac (g : SGroup) (specs : List GroupSplitSpec)
    (h : specs ≠ []) :
    ((SGroup.split true g specs).map SGroup.m).sum = g.m := by
  have hlen : (splitMassList g.m (specs.map GroupSplitSpec.p)).length = specs.length := by
    rw [splitMassList_length, List.length_map]
  have hsnd : (specs.zip (splitMassList g.m (specs.map GroupSplitSpec.p))).map Prod.snd
      = splitMassList g.m (specs.map GroupSplitSpec.p) :=
    List.map_snd_zip _ _ (le_of_eq hlen)
  have hps : specs.map GroupSplitSpec.p ≠ [] := by
    intro hc
    exact h (List.map_eq_nil_iff.mp hc)
  calc ((SGroup.split true g specs).map SGroup.m).sum
      = ((specs.zip (splitMassList g.m (specs.map GroupSplitSpec.p))).map Prod.snd).sum :=
        splitEmit_mass_sum g _
    _ = (splitMassList g.m (specs.map GroupSplitSpec.p)).sum := by rw [hsnd]
    _ = g.m := splitMassList_sum _ _ hps

theorem split_mass_sum_rounded (g : SGroup) (specs : List GroupSplitSpec)
    (h : specs ≠ []) :
    ((SGroup.split false g specs).map SGroup.m).sum = (pyRound g.m : ℚ) := by
  set ml := splitMassList g.m (specs.map GroupSplitSpec.p) with hml
  have hlen : ((saferound ml).map fun z : ℤ => (z : ℚ)).length = specs.length := by
    rw [List.length_map, saferound_length, hml, splitMassList_length, List.length_map]
  have hsnd : (specs.zip ((saferound ml).map fun z : ℤ => (z : ℚ))).map Prod.snd
      = (saferound ml).map fun z : ℤ => (z : ℚ) :=
    List.map_snd_zip _ _ (le_of_eq hlen)
  have hps : specs.map GroupSplitSpec.p ≠ [] := by
    intro hc
    exact h (List.map_eq_nil_iff.mp hc)
  calc ((SGroup.split false g specs).map SGroup.m).sum
      = ((specs.zip (splitMasses false g.m (specs.map GroupSplitSpec.p))).map Prod.snd).sum :=
        splitEmit_mass_sum g _
    _ = ((specs.zip ((saferound ml).map fun z : ℤ => (z : ℚ))).map Prod.snd).sum := by
        rw [splitMasses_false, hml]
    _ = ((saferound ml).map fun z : ℤ => (z : ℚ)).sum := by rw [hsnd]
    _ = ((saferound ml).sum : ℚ) := castSum _
    _ = (pyRound g.m : ℚ) := by
        rw [saferound_sum, hml, splitMassList_sum _ _ hps]

theorem pyRound_intCast (z : ℤ) : pyRound (z : ℚ) = z := by
  rw [pyRound]
  rw [Int.floor_intCast]
  rw [if_pos]
  rw [sub_self]
  norm_num

/-! ## Lemmas: the exact shape of the split mass list (for the
complement/early-stop behaviour) -/

theorem splitGo_last_irrelevant (M : ℚ) :
    ∀ (ps : List ℚ) (pSum mSum : ℚ) (p p' : ℚ),
      splitGo M pSum mSum (ps ++ [p]) = splitGo M pSum mSum (ps ++ [p'])
  | [], _, _, _, _ => rfl
  | [x], pSum, mSum, p, p' => by
    simp [splitGo]
  | x :: y :: rest, pSum, mSum, p, p' => by
    have ih := splitGo_last_irrelevant M (y :: rest) (pSum + x) (mSum + M * x) p p'
    simp only [List.cons_append] at ih ⊢
    simp only [splitGo]
    by_cases hb : pSum + x = 1
    · rw [if_pos hb, if_pos hb]
      simp
    · rw [if_neg hb, if_neg hb, ih]

/-- The supplied probability of the last split spec never influences the
computed masses. -/
theorem splitMassList_last_irrelevant (M : ℚ) (ps : List ℚ) (p p' : ℚ) :
    splitMassList M (ps ++ [p]) = splitMassList M (ps ++ [p']) :=
  splitGo_last_irrelevant M ps 0 0 p p'

theorem splitGo_no_break (M : ℚ) :
    ∀ (ps : List ℚ) (pSum mSum : ℚ), ps ≠ [] →
      (∀ j : ℕ, 1 ≤ j → j < ps.length → pSum + (ps.take j).sum ≠ 1) →
      splitGo M pSum mSum ps =
        (ps.dropLast.map (fun p => M * p)) ++ [M - (mSum + (ps.dropLast.map (fun p => M * p)).sum)]
  | [], _, _, hne, _ => absurd rfl hne
  | [_x], pSum, mSum, _, _ => by simp [splitGo]
  | x :: y :: rest, pSum, mSum, _, hpre => by
    have hb : pSum + x ≠ 1 := by
      have := hpre 1 (le_refl 1) (by simp)
      simpa using this
    have hpre' : ∀ j : ℕ, 1 ≤ j → j < (y :: rest).length →
        (pSum + x) + ((y :: rest).take j).sum ≠ 1 := by
      intro j hj hjl
      have := hpre (j + 1) (by omega) (by simpa using Nat.succ_lt_succ hjl)
      simpa [List.take_succ_cons, add_assoc] using this
    have ih := splitGo_no_break M (y :: rest) (pSum + x) (mSum + M * x)
      (by simp) hpre'
    simp only [splitGo, if_neg hb, ih]
    simp only [List.dropLast_cons_of_ne_nil (by simp : (y :: rest) ≠ ([] : List ℚ)),
      List.map_cons, List.cons_append, List.sum_cons]
    rw [add_assoc]

/-- When no proper prefix of the probabilities sums to 1, every spec but the
last receives `M * p` and the last receives the complement mass. -/
theorem splitMassList_no_break (M : ℚ) (ps : List ℚ) (hne : ps ≠ [])
    (hpre : ∀ j : ℕ, 1 ≤ j → j < ps.length → (ps.take j).sum ≠ 1) :
    splitMassList M ps =
      (ps.dropLast.map (fun p => M * p)) ++
        [M - (ps.dropLast.map (fun p => M * p)).sum] := by
  have h := splitGo_no_break M ps 0 0 hne (by simpa using hpre)
  simpa using h

theorem splitGo_break (M : ℚ) :
    ∀ (ps : List ℚ) (pSum mSum : ℚ) (k : ℕ), k + 1 < ps.length →
      pSum + (ps.take (k + 1)).sum = 1 →
      (∀ j : ℕ, 1 ≤ j → j < k + 1 → pSum + (ps.take j).sum ≠ 1) →
      splitGo M pSum mSum ps =
        ((ps.take (k + 1)).map (fun p => M * p)) ++
          List.replicate (ps.length - (k + 1)) 0
  | [], _, _, k, hk, _, _ => by simp at hk
  | [_x], _, _, k, hk, _, _ => by simp at hk
  | x :: y :: rest, pSum, mSum, 0, hk, hbreak, _ => by
    have hb : pSum + x = 1 := by simpa using hbreak
    simp [splitGo, if_pos hb]
  | x :: y :: rest, pSum, mSum, k + 1, hk, hbreak, hpre => by
    have hb : pSum + x ≠ 1 := by
      have := hpre 1 (le_refl 1) (by omega)
      simpa using this
    have hbreak' : (pSum + x) + ((y :: rest).take (k + 1)).sum = 1 := by
      have : (x :: y :: rest).take (k + 2) = x :: (y :: rest).take (k + 1) := by
        simp [List.take_succ_cons]
      rw [this] at hbreak
      simpa [add_assoc] using hbreak
    have hpre' : ∀ j : ℕ, 1 ≤ j → j < k + 1 →
        (pSum + x) + ((y :: rest).take j).sum ≠ 1 := by
      intro j hj hjl
      have := hpre (j + 1) (by omega) (by omega)
      simpa [List.take_succ_cons, add_assoc] using this
    have ih := splitGo_break M (y :: rest) (pSum + x) (mSum + M * x) k
      (by simpa using Nat.lt_of_succ_lt_succ hk) hbreak' hpre'
    simp only [splitGo, if_neg hb, ih]
    simp only [List.take_succ_cons, List.map_cons, List.cons_append]
    congr 1
    simp

/-- As soon as the running probability sum reaches 1 (at index `k`, before
the last spec), all later specs are skipped: their mass entries stay 0. -/
theorem splitMassList_break (M : ℚ) (ps : List ℚ) (k : ℕ)
    (hk : k + 1 < ps.length) (hbreak : (ps.take (k + 1)).sum = 1)
    (hpre : ∀ j : ℕ, 1 ≤ j → j < k + 1 → (ps.take j).sum ≠ 1) :
    splitMassList M ps =
      ((ps.take (k + 1)).map (fun p => M * p)) ++
        List.replicate (ps.length - (k + 1)) 0 := by
  have h := splitGo_break M ps 0 0 k hk (by simpa using hbreak)
    (by simpa using hpre)
  simpa using h

/-- Zero-mass destinations are never emitted by `Group.split`. -/
theorem split_no_zero_mass (fm : Bool) (g : SGroup) (specs : List GroupSplitSpec) :
    ∀ g' ∈ SGroup.split fm g specs, g'.m ≠ 0 := by
  intro g' hg'
  rw [SGroup.split] at hg'
  rcases List.mem_filterMap.mp hg' with ⟨sm, -, hsm⟩
  by_cases hz : sm.2 = 0
  · rw [if_pos hz] at hsm
    exact absurd hsm (by simp)
  · rw [if_neg hz] at hsm
    have hinj := Option.some.inj hsm
    rw [← hinj]
    exact hz

end Pram

namespace Pram

/-! ## Claim theorems: Resource capacity -/

/-- C8: for every `Resource` and every `n ≥ 0`: if `capacity + n ≤
capacity_max` then `allocate_all n` returns `True` and increases capacity by
exactly `n`; otherwise it returns `False` and capacity is unchanged
(all-or-nothing admission). -/
theorem allocate_all_all_or_nothing (r : Resource) (n : Int) (hn : 0 ≤ n) :
    (r.capacity + n ≤ r.capacity_max →
       (r.allocate_all n).2 = true ∧
       (r.allocate_all n).1.capacity = r.capacity + n) ∧
    (¬ (r.capacity + n ≤ r.capacity_max) →
       (r.allocate_all n).2 = false ∧
       (r.allocate_all n).1.capacity = r.capacity) := by
  constructor
  · intro h
    simp [Resource.allocate_all, h]
  · intro h
    simp [Resource.allocate_all, h]

/-- Witness for C8 at a concrete input: `Resource(max=5, capacity=3)`,
`allocate_all 2` succeeds with capacity 5 (the spec's own example). -/
theorem allocate_all_all_or_nothing_witness :
    (0 ≤ (2 : Int)) ∧
    (({ capacity := 3, capacity_max := 5 : Resource }.allocate_all 2).2 = true ∧
     ({ capacity := 3, capacity_max := 5 : Resource }.allocate_all 2).1.capacity = 5) := by
  refine ⟨by decide, ?_⟩
  have h := allocate_all_all_or_nothing { capacity := 3, capacity_max := 5 } 2 (by decide)
  exact h.1 (by decide)

/-- C10 counter-evidence: `allocate_any` violates the capacity invariant.
Starting from a fresh `Resource` with `capacity_max = 1` (so `0 ≤ capacity ≤
capacity_max` holds), a single `allocate_any 2` call drives `capacity` to
`-1`: the source computes `n_accommodated = capacity_max - n = -1` and adds
it to `capacity`, ignoring the current occupancy. -/
theorem allocate_any_breaks_invariant :
    (0 ≤ (Resource.init 1).capacity ∧
      (Resource.init 1).capacity ≤ (Resource.init 1).capacity_max) ∧
    (Resource.runCalls (Resource.init 1) [.any 2]).capacity = -1 := by
  constructor
  · constructor <;> decide
  · decide

/-- C10 counter-evidence, upper bound: `allocate_any` can also push capacity
above `capacity_max` (max 5, two successive `allocate_any 1` calls leave
capacity 8 > 5). -/
theorem allocate_any_exceeds_max :
    (Resource.runCalls (Resource.init 5) [.any 1, .any 1]).capacity = 8 ∧
    8 > (Resource.init 5).capacity_max := by
  constructor
  · decide
  · decide

/-! ## Claim theorems: mass splitting -/

/-- C1 (amended): for every group and non-empty split-spec list, the
destination masses sum exactly to the source mass `m` in fractional mode;
in rounded mode they sum to the Python-round of `m`, hence exactly to `m`
whenever `m` is an integer. -/
theorem split_mass_conservation (g : SGroup) (specs : List GroupSplitSpec)
    (h : specs ≠ []) :
    ((SGroup.split true g specs).map SGroup.m).sum = g.m ∧
    ((SGroup.split false g specs).map SGroup.m).sum = (pyRound g.m : ℚ) ∧
    (∀ z : ℤ, g.m = (z : ℚ) →
      ((SGroup.split false g specs).map SGroup.m).sum = g.m) :=
  ⟨split_mass_sum_frac g specs h,
   split_mass_sum_rounded g specs h,
   fun z hz => by rw [split_mass_sum_rounded g specs h, hz, pyRound_intCast]⟩

/-- Witness for C1 at the spec's own scenario: a group of mass 200 split
with p = 0.1416 and the complement. -/
theorem split_mass_conservation_witness :
    ([{ p := 1416/10000, attr_del := ["income"] },
      { p := 0, rel_set := [("location", Val.vS "work")] }] : List GroupSplitSpec) ≠ [] ∧
    (((SGroup.split true { m := 200 }
        [{ p := 1416/10000, attr_del := ["income"] },
         { p := 0, rel_set := [("location", Val.vS "work")] }]).map SGroup.m).sum
        = ({ m := 200 } : SGroup).m ∧
     ((SGroup.split false { m := 200 }
        [{ p := 1416/10000, attr_del := ["income"] },
         { p := 0, rel_set := [("location", Val.vS "work")] }]).map SGroup.m).sum
        = (pyRound ({ m := 200 } : SGroup).m : ℚ) ∧
     (∀ z : ℤ, ({ m := 200 } : SGroup).m = (z : ℚ) →
       ((SGroup.split false { m := 200 }
          [{ p := 1416/10000, attr_del := ["income"] },
           { p := 0, rel_set := [("location", Val.vS "work")] }]).map SGroup.m).sum
          = ({ m := 200 } : SGroup).m)) :=
  ⟨by decide, split_mass_conservation { m := 200 } _ (by decide)⟩

/-- C1 counterexample to the claim as stated: with rounding in force, a
group of fractional mass 1/2 split by the single spec `p = 1` emits a total
mass of 0, not 1/2 (the half rounds to zero and the zero-mass destination is
dropped). -/
theorem split_rounded_not_conserving :
    ((SGroup.split false { m := 1/2 } [{ p := 1 }]).map SGroup.m).sum = 0 ∧
    ¬ (((SGroup.split false { m := 1/2 } [{ p := 1 }]).map SGroup.m).sum
        = ({ m := 1/2 } : SGroup).m) := by
  have h : ((SGroup.split false { m := 1/2 } [{ p := 1 }]).map SGroup.m).sum = 0 := by
    norm_num [SGroup.split, splitMasses, splitMassList, splitGo, saferound, pyRound,
      urems, lrBump]
  refine ⟨h, ?_⟩
  rw [h]
  norm_num

/-- C7: behaviour of the ordered split-spec processing in `Group.split`:
(1) the supplied probability of the last spec never influences the result
(it is replaced by the complement of the running sum);
(2) when no proper prefix of the probabilities sums to 1, every spec but the
last yields mass `m·p` and the last yields the source mass minus the sum of
the prior masses;
(3) as soon as the running probability sum reaches 1 (first at index `k`
before the last), all later specs are skipped with zero mass entries;
(4) zero-mass destinations are never emitted. -/
theorem split_last_complement_early_stop :
    (∀ (M : ℚ) (qs : List ℚ) (p p' : ℚ),
       splitMassList M (qs ++ [p]) = splitMassList M (qs ++ [p'])) ∧
    (∀ (M : ℚ) (ps : List ℚ), ps ≠ [] →
       (∀ j : ℕ, 1 ≤ j → j < ps.length → (ps.take j).sum ≠ 1) →
       splitMassList M ps =
         (ps.dropLast.map (fun p => M * p)) ++
           [M - (ps.dropLast.map (fun p => M * p)).sum]) ∧
    (∀ (M : ℚ) (ps : List ℚ) (k : ℕ), k + 1 < ps.length →
       (ps.take (k + 1)).sum = 1 →
       (∀ j : ℕ, 1 ≤ j → j < k + 1 → (ps.take j).sum ≠ 1) →
       splitMassList M ps =
         ((ps.take (k + 1)).map (fun p => M * p)) ++
           List.replicate (ps.length - (k + 1)) 0) ∧
    (∀ (fm : Bool) (g : SGroup) (specs : List GroupSplitSpec),
       ∀ g' ∈ SGroup.split fm g specs, g'.m ≠ 0) :=
  ⟨splitMassList_last_irrelevant,
   splitMassList_no_break,
   splitMassList_break,
   split_no_zero_mass⟩

/-- Witness for C7: concrete instances of all four components — last-spec
probability irrelevance at `[1/2] ++ [p]`; the no-break shape at
`M = 6, ps = [1/2, 1/3, 1/4]`; the early stop at `M = 6, ps = [1/2, 1/2, 1/4]`
(the running sum reaches 1 after two specs, the third is skipped); and
non-emission of zero masses on a concrete split. -/
theorem split_last_complement_early_stop_witness :
    (splitMassList 10 ([1/2] ++ [9/10]) = splitMassList 10 ([1/2] ++ [(0 : ℚ)])) ∧
    (splitMassList 6 [1/2, 1/3, 1/4] =
       (([1/2, 1/3, (1/4 : ℚ)].dropLast.map (fun p => 6 * p)) ++
         [6 - (([1/2, 1/3, (1/4 : ℚ)].dropLast.map (fun p => 6 * p)).sum)])) ∧
    (splitMassList 6 [1/2, 1/2, 1/4] =
       ((([1/2, 1/2, (1/4 : ℚ)].take 2).map (fun p => 6 * p)) ++
         List.replicate ([1/2, 1/2, (1/4 : ℚ)].length - 2) 0)) ∧
    (∀ g' ∈ SGroup.split true ({ m := 1 } : SGroup) [{ p := 1/2 }, { p := 1/2 }],
       g'.m ≠ 0) :=
  ⟨split_last_complement_early_stop.1 10 [1/2] (9/10) 0,
   split_last_complement_early_stop.2.1 6 [1/2, 1/3, 1/4] (by decide)
     (by
       intro j h1 h2
       simp only [List.length_cons, List.length_nil] at h2
       interval_cases j <;> norm_num [List.take]),
   split_last_complement_early_stop.2.2.1 6 [1/2, 1/2, 1/4] 1
     (by norm_num)
     (by norm_num [List.take])
     (by
       intro j h1 h2
       interval_cases j
       norm_num [List.take]),
   fun g' hg' =>
     split_last_complement_early_stop.2.2.2 true { m := 1 }
       [{ p := 1/2 }, { p := 1/2 }] g' hg'⟩

end Pram

namespace Pram

/-! ## Group mutation (`Group.set_attr` / `Group.set_rel`,
entity.py:1746-1827)

A group raises `GroupFrozenError` on mutation while it is population-bound
(`self.pop` set — the `registered` flag here) unless `do_force` is passed.
Successful mutation updates the dictionary and resets the cached hash. -/

inductive PyErr where
  | attributeError
  | keyError
  | groupFrozen
deriving DecidableEq, Repr

def SGroup.set_attr (g : SGroup) (name : String) (value : Val) (do_force : Bool) :
    Except PyErr SGroup :=
  if g.registered = true ∧ ¬do_force = true then .error .groupFrozen
  else .ok { g with attr := dSet g.attr name value, hashCache := none }

/-- `value.get_hash()`: defined for entity values only; anything else
raises `AttributeError`. -/
def valHash : Val → Except PyErr Val
  | .vSite h => .ok (.vH h)
  | _ => .error .attributeError

/-- `set_rel`: a standalone group stores the value as given; a
population-bound (forced) write stores `value.get_hash()`, which raises
`AttributeError` unless the value is an entity.  (The `link_to_site_at`
upkeep touches only the site's back-references, not the group.) -/
def SGroup.set_rel (g : SGroup) (name : String) (value : Val) (do_force : Bool) :
    Except PyErr SGroup :=
  if g.registered = true ∧ ¬do_force = true then .error .groupFrozen
  else if g.registered = false then
    .ok { g with rel := dSet g.rel name value, hashCache := none }
  else
    (valHash value).map
      (fun v => { g with rel := dSet g.rel name v, hashCache := none })

/-! ## Group population (`pram/pop.py`, class `GroupPopulation`)

The population's `groups` dict maps `Group.get_hash()` to the group; we key
it by the hashed data itself, the insertion-ordered attribute/relation pair
(an injective digest of exactly that data — see the C4 theorems for what
the real `gen_hash` does to it). -/

abbrev GKey := Dict × Dict

def SGroup.key (g : SGroup) : GKey := (g.attr, g.rel)

/-- `Group.is_void()`: the attribute dict contains `{'__void__': True}`. -/
def isVoid (g : SGroup) : Bool :=
  dSubset [("__void__", Val.vB true)] g.attr

structure Pop where
  groups : List (GKey × SGroup) := []
  vita_groups : List (GKey × SGroup) := []
  m : ℚ := 0
  m_in : ℚ := 0
  m_out : ℚ := 0
  is_frozen : Bool := false
deriving Repr

/-- Dict lookup in a hash-keyed group map. -/
def plookup (l : List (GKey × SGroup)) (k : GKey) : Option SGroup :=
  match l.find? (fun kv => kv.1 = k) with
  | some kv => some kv.2
  | none => none

/-- `self.groups.get(h).m += dm` on the (unique) entry with key `k`. -/
def pBumpMass (l : List (GKey × SGroup)) (k : GKey) (dm : ℚ) : List (GKey × SGroup) :=
  l.map (fun kv => if kv.1 = k then (kv.1, { kv.2 with m := kv.2.m + dm }) else kv)

/-- Modelled from the spec: `Group.freeze`, called by
`GroupPopulation.add_group` (pop.py:170) but absent from the snapshot's
`entity.py`; per spec §4.5/§9 registration marks the group
registered/mutation-protected (the Standalone → Registered transition). -/
def SGroup.freeze (g : SGroup) : SGroup :=
  { g with registered := true }

/-- `GroupPopulation.add_group(group)` (pop.py:124-174).  Content hash is
taken (and cached) before the relation values are rewritten; if the hash is
known the masses merge, otherwise `Site`/`Resource` relation values are
replaced by their hashes, the group is marked population-bound
(`group.pop = self` then `group.freeze()`) and registered under the hash. -/
def addGroup (pop : Pop) (g : SGroup) : Pop :=
  let m' := if pop.is_frozen then pop.m else pop.m + g.m
  match plookup pop.groups g.key with
  | some _ => { pop with m := m', groups := pBumpMass pop.groups g.key g.m }
  | none =>
      let g' := { g with
        rel := g.rel.map (fun kv : String × Val =>
          match kv.2 with
          | Val.vSite h => (kv.1, Val.vH h)
          | v => (kv.1, v)) }
      { pop with m := m', groups := pop.groups ++ [(g.key, g'.freeze)] }

/-- Total mass carried under key `k`. -/
def massAt (l : List (GKey × SGroup)) (k : GKey) : ℚ :=
  ((l.filter (fun kv => kv.1 = k)).map (fun kv => kv.2.m)).sum

def countKey (l : List (GKey × SGroup)) (k : GKey) : ℕ :=
  (l.filter (fun kv => kv.1 = k)).length

/-- Step (2) of `do_post_iter`: fold each pending VITA group's mass into its
hash-matched registered group (`self.groups[k].m += v.m` — a missing match
raises `KeyError`), crediting `m` and `m_in`; the VITA set is cleared when
the loop completes. -/
def foldVita : Pop → List (GKey × SGroup) → Except PyErr Pop
  | pop, [] => .ok { pop with vita_groups := [] }
  | pop, (k, v) :: rest =>
    match plookup pop.groups k with
    | none => .error .keyError
    | some _ =>
        foldVita { pop with
          m := pop.m + v.m,
          m_in := pop.m_in + v.m,
          groups := pBumpMass pop.groups k v.m } rest

/-- `GroupPopulation.do_post_iter()` (pop.py:340-374): remove every
VOID-flagged group, debiting `m` and crediting `m_out`; then fold in the
VITA groups. -/
def doPostIter (pop : Pop) : Except PyErr Pop :=
  let voidMass := ((pop.groups.filter (fun kv => isVoid kv.2)).map
    (fun kv => kv.2.m)).sum
  let pop1 : Pop := { pop with
    m := pop.m - voidMass,
    m_out := pop.m_out + voidMass,
    groups := pop.groups.filter (fun kv => !(isVoid kv.2)) }
  foldVita pop1 pop.vita_groups

end Pram

namespace Pram

/-! ## Lemmas: population group maps -/

theorem plookup_cons (kv : GKey × SGroup) (l : List (GKey × SGroup)) (k : GKey) :
    plookup (kv :: l) k = if kv.1 = k then some kv.2 else plookup l k := by
  rw [plookup, List.find?_cons]
  by_cases h : kv.1 = k
  · simp [h]
  · simp [h, plookup]

theorem plookup_none_filter (l : List (GKey × SGroup)) (k : GKey)
    (h : plookup l k = none) : l.filter (fun kv => kv.1 = k) = [] := by
  induction l with
  | nil => rfl
  | cons kv t ih =>
    rw [plookup_cons] at h
    by_cases hk : kv.1 = k
    · rw [if_pos hk] at h
      exact absurd h (by simp)
    · rw [if_neg hk] at h
      simp [List.filter_cons, hk, ih h]

theorem countKey_append (l1 l2 : List (GKey × SGroup)) (k : GKey) :
    countKey (l1 ++ l2) k = countKey l1 k + countKey l2 k := by
  simp [countKey, List.filter_append]

theorem massAt_append (l1 l2 : List (GKey × SGroup)) (k : GKey) :
    massAt (l1 ++ l2) k = massAt l1 k + massAt l2 k := by
  simp [massAt, List.filter_append]

theorem plookup_append_right (l1 l2 : List (GKey × SGroup)) (k : GKey)
    (h : plookup l1 k = none) : plookup (l1 ++ l2) k = plookup l2 k := by
  induction l1 with
  | nil => rfl
  | cons kv t ih =>
    rw [plookup_cons] at h
    rw [List.cons_append, plookup_cons]
    by_cases hk : kv.1 = k
    · rw [if_pos hk] at h
      exact absurd h (by simp)
    · rw [if_neg hk] at h ⊢
      exact ih h

theorem pBumpMass_filter_key (l : List (GKey × SGroup)) (k0 k : GKey) (dm : ℚ) :
    (pBumpMass l k0 dm).filter (fun kv => kv.1 = k) =
      (l.filter (fun kv => kv.1 = k)).map
        (fun kv => if kv.1 = k0 then (kv.1, { kv.2 with m := kv.2.m + dm }) else kv) := by
  rw [pBumpMass, List.filter_map]
  congr 1
  apply List.filter_congr
  intro kv _
  by_cases h0 : kv.1 = k0
  · simp [h0]
  · simp [h0]

theorem sum_map_add_const (l : List (GKey × SGroup)) (dm : ℚ) :
    (l.map (fun kv => kv.2.m + dm)).sum = (l.map (fun kv => kv.2.m)).sum + dm * l.length := by
  induction l with
  | nil => simp
  | cons kv t ih =>
    simp only [List.map_cons, List.sum_cons, List.length_cons, ih]
    push_cast
    ring

theorem countKey_pBumpMass (l : List (GKey × SGroup)) (k0 k : GKey) (dm : ℚ) :
    countKey (pBumpMass l k0 dm) k = countKey l k := by
  rw [countKey, pBumpMass_filter_key, List.length_map, countKey]

theorem massAt_pBumpMass (l : List (GKey × SGroup)) (k0 k : GKey) (dm : ℚ) :
    massAt (pBumpMass l k0 dm) k =
      massAt l k + (if k = k0 then dm * countKey l k else 0) := by
  rw [massAt, pBumpMass_filter_key, List.map_map]
  have hmap : ((l.filter (fun kv => kv.1 = k)).map
      ((fun kv : GKey × SGroup => kv.2.m) ∘
        (fun kv => if kv.1 = k0 then (kv.1, { kv.2 with m := kv.2.m + dm }) else kv))) =
      (l.filter (fun kv => kv.1 = k)).map
        (fun kv => if k = k0 then kv.2.m + dm else kv.2.m) := by
    apply List.map_congr_left
    intro kv hkv
    have hkvk : kv.1 = k := by
      have := List.mem_filter.mp hkv
      simpa using this.2
    by_cases hkk : k = k0
    · rw [Function.comp_apply, if_pos (hkvk.trans hkk), if_pos hkk]
    · rw [Function.comp_apply, if_neg (fun he => hkk (hkvk ▸ he)), if_neg hkk]
  rw [hmap]
  by_cases hkk : k = k0
  · simp only [if_pos hkk]
    rw [show ((l.filter (fun kv => kv.1 = k)).map (fun kv => kv.2.m + dm)) =
        ((l.filter (fun kv => kv.1 = k)).map (fun kv : GKey × SGroup => kv.2.m + dm)) from rfl]
    rw [sum_map_add_const]
    rw [massAt, countKey]
  · simp only [if_neg hkk]
    rw [massAt]
    simp

theorem plookup_pBumpMass_isSome (l : List (GKey × SGroup)) (k0 k : GKey) (dm : ℚ) :
    (plookup (pBumpMass l k0 dm) k).isSome = (plookup l k).isSome := by
  induction l with
  | nil => rfl
  | cons kv t ih =>
    by_cases h0 : kv.1 = k0
    · rw [pBumpMass, List.map_cons, if_pos h0, plookup_cons, plookup_cons]
      by_cases hk : kv.1 = k
      · simp [hk]
      · rw [if_neg hk, if_neg hk]
        simpa [pBumpMass] using ih
    · rw [pBumpMass, List.map_cons, if_neg h0, plookup_cons, plookup_cons]
      by_cases hk : kv.1 = k
      · simp [hk]
      · rw [if_neg hk, if_neg hk]
        simpa [pBumpMass] using ih

theorem pBumpMass_content (l : List (GKey × SGroup)) (k0 : GKey) (dm : ℚ) :
    (pBumpMass l k0 dm).map (fun kv => (kv.1, kv.2.attr, kv.2.rel)) =
      l.map (fun kv => (kv.1, kv.2.attr, kv.2.rel)) := by
  rw [pBumpMass, List.map_map]
  apply List.map_congr_left
  intro kv _
  by_cases h0 : kv.1 = k0
  · rw [Function.comp_apply, if_pos h0]
  · rw [Function.comp_apply, if_neg h0]

theorem countKey_eq_one_of_lookup (l : List (GKey × SGroup)) (k : GKey)
    (hnodup : (l.map Prod.fst).Nodup) (h : (plookup l k).isSome = true) :
    countKey l k = 1 := by
  induction l with
  | nil => simp [plookup] at h
  | cons kv t ih =>
    rw [plookup_cons] at h
    by_cases hk : kv.1 = k
    · have hmem : k ∉ t.map Prod.fst := by
        have hh := (List.nodup_cons.mp hnodup).1
        rwa [hk] at hh
      have hfil : t.filter (fun kv => kv.1 = k) = [] := by
        apply List.filter_eq_nil_iff.mpr
        intro kv2 hkv2
        simp only [decide_eq_true_eq]
        intro he
        exact hmem (he ▸ List.mem_map_of_mem Prod.fst hkv2)
      simp [countKey, List.filter_cons, hk, hfil]
    · rw [if_neg hk] at h
      have ih2 := ih (List.nodup_cons.mp hnodup).2 h
      rw [countKey] at ih2 ⊢
      simp [List.filter_cons, hk, ih2]

end Pram

namespace Pram

theorem massAt_cons (kv : GKey × SGroup) (l : List (GKey × SGroup)) (k : GKey) :
    massAt (kv :: l) k = (if kv.1 = k then kv.2.m else 0) + massAt l k := by
  rw [massAt, List.filter_cons]
  by_cases h : kv.1 = k
  · simp [h, massAt]
  · simp [h, massAt]

theorem foldVita_spec :
    ∀ (vita : List (GKey × SGroup)) (pop : Pop),
      (∀ kv ∈ vita, (plookup pop.groups kv.1).isSome = true) →
      ((pop.groups.map Prod.fst).Nodup) →
      ∃ pop', foldVita pop vita = .ok pop' ∧
        pop'.m = pop.m + (vita.map (fun kv => kv.2.m)).sum ∧
        pop'.m_in = pop.m_in + (vita.map (fun kv => kv.2.m)).sum ∧
        pop'.m_out = pop.m_out ∧
        pop'.vita_groups = [] ∧
        pop'.groups.map (fun kv => (kv.1, kv.2.attr, kv.2.rel)) =
          pop.groups.map (fun kv => (kv.1, kv.2.attr, kv.2.rel)) ∧
        (∀ k, massAt pop'.groups k = massAt pop.groups k + massAt vita k)
  | [], pop, _, _ => by
    refine ⟨{ pop with vita_groups := [] }, rfl, by simp, by simp, rfl, rfl, rfl, ?_⟩
    intro k
    simp [massAt]
  | (k0, v) :: rest, pop, hmatch, hnodup => by
    have hhead : (plookup pop.groups k0).isSome = true :=
      hmatch (k0, v) (List.mem_cons_self _ _)
    obtain ⟨g0, hg0⟩ : ∃ g0, plookup pop.groups k0 = some g0 :=
      Option.isSome_iff_exists.mp hhead
    set popB : Pop := { pop with
      m := pop.m + v.m,
      m_in := pop.m_in + v.m,
      groups := pBumpMass pop.groups k0 v.m } with hpopB
    have hmatch' : ∀ kv ∈ rest, (plookup popB.groups kv.1).isSome = true := by
      intro kv hkv
      rw [hpopB]
      show (plookup (pBumpMass pop.groups k0 v.m) kv.1).isSome = true
      rw [plookup_pBumpMass_isSome]
      exact hmatch kv (List.mem_cons_of_mem _ hkv)
    have hnodup' : (popB.groups.map Prod.fst).Nodup := by
      rw [hpopB]
      show ((pBumpMass pop.groups k0 v.m).map Prod.fst).Nodup
      have hfst : (pBumpMass pop.groups k0 v.m).map Prod.fst =
          pop.groups.map Prod.fst := by
        rw [pBumpMass, List.map_map]
        apply List.map_congr_left
        intro kv _
        by_cases h0 : kv.1 = k0
        · rw [Function.comp_apply, if_pos h0]
        · rw [Function.comp_apply, if_neg h0]
      rw [hfst]
      exact hnodup
    obtain ⟨pop', hrun, hm, hmin, hmout, hvita, hcontent, hmass⟩ :=
      foldVita_spec rest popB hmatch' hnodup'
    have hcount1 : countKey pop.groups k0 = 1 :=
      countKey_eq_one_of_lookup pop.groups k0 hnodup hhead
    refine ⟨pop', ?_, ?_, ?_, ?_, hvita, ?_, ?_⟩
    · rw [foldVita, hg0]
      exact hrun
    · rw [hm, hpopB]
      simp only [List.map_cons, List.sum_cons]
      ring
    · rw [hmin, hpopB]
      simp only [List.map_cons, List.sum_cons]
      ring
    · rw [hmout]
    · rw [hcontent, hpopB]
      show (pBumpMass pop.groups k0 v.m).map (fun kv => (kv.1, kv.2.attr, kv.2.rel))
        = pop.groups.map (fun kv => (kv.1, kv.2.attr, kv.2.rel))
      exact pBumpMass_content pop.groups k0 v.m
    · intro k
      rw [hmass k, hpopB]
      show massAt (pBumpMass pop.groups k0 v.m) k + massAt rest k = _
      rw [massAt_pBumpMass]
      by_cases hkk : k = k0
      · rw [if_pos hkk]
        have hck : countKey pop.groups k = 1 := hkk ▸ hcount1
        rw [hck, massAt_cons, if_pos (show (k0, v).1 = k from hkk.symm)]
        push_cast
        ring
      · rw [if_neg hkk, massAt_cons,
          if_neg (show ¬ (k0, v).1 = k from fun he => hkk he.symm)]
        ring

end Pram

namespace Pram

/-- `isVoid` only inspects the attribute dictionary. -/
theorem isVoid_of_attr_eq {g g' : SGroup} (h : g.attr = g'.attr) :
    isVoid g = isVoid g' := by
  rw [isVoid, isVoid, h]

end Pram

namespace Pram

/-! ## Claim theorems: population lifecycle -/

/-- C6: `do_post_iter` removes every VOID-flagged group (debiting the
population mass by exactly the total VOID mass and crediting mass-out by the
same amount), then folds each pending VITA group's mass into the registered
group with the matching content hash (crediting mass and mass-in by the
total VITA mass), leaving the VITA set empty and no VOID group behind.
Hypotheses: the population's group keys are unique (the content-hash
invariant) and every VITA hash has a surviving match — otherwise the Python
raises `KeyError` at `self.groups[k].m += v.m`. -/
theorem do_post_iter_spec (pop : Pop)
    (hnodup : (pop.groups.map Prod.fst).Nodup)
    (hmatch : ∀ kv ∈ pop.vita_groups,
      (plookup (pop.groups.filter (fun kv => !(isVoid kv.2))) kv.1).isSome = true) :
    ∃ pop', doPostIter pop = .ok pop' ∧
      pop'.vita_groups = [] ∧
      (∀ kv ∈ pop'.groups, isVoid kv.2 = false) ∧
      pop'.m = pop.m
        - ((pop.groups.filter (fun kv => isVoid kv.2)).map (fun kv => kv.2.m)).sum
        + (pop.vita_groups.map (fun kv => kv.2.m)).sum ∧
      pop'.m_out = pop.m_out
        + ((pop.groups.filter (fun kv => isVoid kv.2)).map (fun kv => kv.2.m)).sum ∧
      pop'.m_in = pop.m_in + (pop.vita_groups.map (fun kv => kv.2.m)).sum ∧
      (∀ k, massAt pop'.groups k =
        massAt (pop.groups.filter (fun kv => !(isVoid kv.2))) k
          + massAt pop.vita_groups k) := by
  set voidMass :=
    ((pop.groups.filter (fun kv => isVoid kv.2)).map (fun kv => kv.2.m)).sum with hvm
  set pop1 : Pop := { pop with
    m := pop.m - voidMass,
    m_out := pop.m_out + voidMass,
    groups := pop.groups.filter (fun kv => !(isVoid kv.2)) } with hpop1
  have hnodup1 : (pop1.groups.map Prod.fst).Nodup := by
    rw [hpop1]
    show ((pop.groups.filter (fun kv => !(isVoid kv.2))).map Prod.fst).Nodup
    exact List.Nodup.sublist
      (List.Sublist.map Prod.fst (List.filter_sublist pop.groups)) hnodup
  have hmatch1 : ∀ kv ∈ pop.vita_groups, (plookup pop1.groups kv.1).isSome = true := by
    intro kv hkv
    rw [hpop1]
    exact hmatch kv hkv
  obtain ⟨pop', hrun, hm, hmin, hmout, hvita, hcontent, hmass⟩ :=
    foldVita_spec pop.vita_groups pop1 hmatch1 hnodup1
  refine ⟨pop', ?_, hvita, ?_, ?_, ?_, ?_, ?_⟩
  · rw [doPostIter]
    exact hrun
  · intro kv hkv
    have hmem : (kv.1, kv.2.attr, kv.2.rel) ∈
        pop1.groups.map (fun kv => (kv.1, kv.2.attr, kv.2.rel)) := by
      rw [← hcontent]
      exact List.mem_map_of_mem _ hkv
    rcases List.mem_map.mp hmem with ⟨kv0, hkv0, heq⟩
    have hattr : kv0.2.attr = kv.2.attr := by
      have := congrArg (fun t => t.2.1) heq
      simpa using this
    have hnv : isVoid kv0.2 = false := by
      have hf := (List.mem_filter.mp (hpop1 ▸ hkv0)).2
      simpa using hf
    rw [← isVoid_of_attr_eq hattr.symm] at hnv
    exact hnv
  · rw [hm, hpop1]
  · rw [hmout, hpop1]
  · rw [hmin, hpop1]
  · intro k
    rw [hmass k, hpop1]

/-- Witness for C6: a population with one live group of mass 10, one VOID
group of mass 5, and one pending VITA group of mass 3 matching the live
group.  `do_post_iter` ends with the VOID group gone, mass 8 = 10 - 5 + 3,
mass-out 5, mass-in 3, and the live group's mass 13. -/
theorem do_post_iter_spec_witness :
    (let kA : GKey := ([("x", Val.vI 1)], [])
     let kV : GKey := ([("__void__", Val.vB true)], [])
     let pop : Pop := {
       groups := [(kA, { m := 10, attr := [("x", Val.vI 1)], registered := true }),
                  (kV, { m := 5, attr := [("__void__", Val.vB true)], registered := true })],
       vita_groups := [(kA, { m := 3, attr := [("x", Val.vI 1)] })],
       m := 15 }
     (pop.groups.map Prod.fst).Nodup ∧
     (∀ kv ∈ pop.vita_groups,
       (plookup (pop.groups.filter (fun kv => !(isVoid kv.2))) kv.1).isSome = true) ∧
     ∃ pop', doPostIter pop = .ok pop' ∧
       pop'.vita_groups = [] ∧
       (∀ kv ∈ pop'.groups, isVoid kv.2 = false) ∧
       pop'.m = pop.m
         - ((pop.groups.filter (fun kv => isVoid kv.2)).map (fun kv => kv.2.m)).sum
         + (pop.vita_groups.map (fun kv => kv.2.m)).sum ∧
       pop'.m_out = pop.m_out
         + ((pop.groups.filter (fun kv => isVoid kv.2)).map (fun kv => kv.2.m)).sum ∧
       pop'.m_in = pop.m_in + (pop.vita_groups.map (fun kv => kv.2.m)).sum ∧
       (∀ k, massAt pop'.groups k =
         massAt (pop.groups.filter (fun kv => !(isVoid kv.2))) k
           + massAt pop.vita_groups k)) := by
  refine ⟨?_, ?_, ?_⟩
  · decide
  · decide
  · exact do_post_iter_spec _ (by decide) (by decide)

/-- The merge path of `add_group` when the two dicts also match in
insertion order (so the population key coincides): exactly one registered
group with that content, whose mass is the sum of the two.  (With
`Group.freeze` modelled from the spec — the method is absent from the
snapshot.)  The reordered case is settled separately below. -/
theorem add_group_content_merge (pop : Pop) (g1 g2 : SGroup)
    (hattr : g2.attr = g1.attr) (hrel : g2.rel = g1.rel)
    (hfresh : plookup pop.groups g1.key = none) :
    countKey (addGroup (addGroup pop g1) g2).groups g1.key = 1 ∧
    massAt (addGroup (addGroup pop g1) g2).groups g1.key = g1.m + g2.m ∧
    (∀ kv ∈ (addGroup (addGroup pop g1) g2).groups,
      kv.1 = g1.key → kv.2.registered = true) := by
  have hkey : g2.key = g1.key := by
    rw [SGroup.key, SGroup.key, hattr, hrel]
  set g1' : SGroup := { g1 with
    rel := g1.rel.map (fun kv : String × Val =>
      match kv.2 with
      | Val.vSite h => (kv.1, Val.vH h)
      | v => (kv.1, v)) } with hg1'
  have hstep1 : (addGroup pop g1).groups = pop.groups ++ [(g1.key, g1'.freeze)] := by
    rw [addGroup, hfresh]
  have hlook1 : plookup (addGroup pop g1).groups g2.key = some g1'.freeze := by
    rw [hstep1, hkey, plookup_append_right pop.groups _ _ hfresh, plookup_cons,
      if_pos rfl]
  have hstep2 : (addGroup (addGroup pop g1) g2).groups =
      pBumpMass (addGroup pop g1).groups g2.key g2.m := by
    rw [addGroup, hlook1]
  have hfill : pop.groups.filter (fun kv => kv.1 = g1.key) = [] :=
    plookup_none_filter pop.groups g1.key hfresh
  have hcount0 : countKey pop.groups g1.key = 0 := by
    rw [countKey, hfill]
    rfl
  have hmass0 : massAt pop.groups g1.key = 0 := by
    rw [massAt, hfill]
    rfl
  have hcount1 : countKey (addGroup pop g1).groups g1.key = 1 := by
    rw [hstep1, countKey_append, hcount0, countKey, List.filter_cons]
    simp
  refine ⟨?_, ?_, ?_⟩
  · rw [hstep2, hkey, countKey_pBumpMass, hcount1]
  · rw [hstep2, hkey, massAt_pBumpMass, if_pos rfl, hcount1, hstep1, massAt_append,
      hmass0, massAt_cons, if_pos rfl]
    have hm1 : (g1'.freeze).m = g1.m := rfl
    have hnil : massAt ([] : List (GKey × SGroup)) g1.key = 0 := rfl
    rw [hm1, hnil]
    push_cast
    ring
  · intro kv hkv hk
    rw [hstep2] at hkv
    rcases List.mem_map.mp hkv with ⟨kv0, hkv0, heq⟩
    rw [hstep1] at hkv0
    rcases List.mem_append.mp hkv0 with hin | hin
    · exfalso
      by_cases h0 : kv0.1 = g2.key
      · rw [if_pos h0] at heq
        have : plookup pop.groups g1.key ≠ none := by
          rw [plookup]
          have hfind : pop.groups.find? (fun kv => kv.1 = g1.key) ≠ none := by
            intro hnone
            have := List.find?_eq_none.mp hnone kv0 hin
            rw [hkey] at h0
            simpa [h0] using this
          intro hcon
          rcases hfound : pop.groups.find? (fun kv => kv.1 = g1.key) with - | kvf
          · exact hfind hfound
          · rw [hfound] at hcon
            simp at hcon
        exact this hfresh
      · rw [if_neg h0] at heq
        have h1 : kv0.1 = g1.key := by rw [← heq] at hk; exact hk
        rw [hkey] at h0
        exact h0 h1
    · have hkv0' : kv0 = (g1.key, g1'.freeze) := by simpa using hin
      subst hkv0'
      by_cases h0 : (g1.key, g1'.freeze).1 = g2.key
      · rw [if_pos h0] at heq
        rw [← heq]
        rfl
      · rw [if_neg h0] at heq
        rw [← heq]
        rfl

end Pram

namespace Pram

/-- The same-order merge at a concrete input: an empty population, then
two groups with attribute `{'sex': 'f'}` and masses 100 and 50 — one
registered group of mass 150. -/
theorem add_group_content_merge_witness :
    (let g1 : SGroup := { m := 100, attr := [("sex", Val.vS "f")] }
     let g2 : SGroup := { m := 50, attr := [("sex", Val.vS "f")] }
     let pop0 : Pop := {}
     g2.attr = g1.attr ∧ g2.rel = g1.rel ∧ plookup pop0.groups g1.key = none ∧
     (countKey (addGroup (addGroup pop0 g1) g2).groups g1.key = 1 ∧
      massAt (addGroup (addGroup pop0 g1) g2).groups g1.key = g1.m + g2.m ∧
      (∀ kv ∈ (addGroup (addGroup pop0 g1) g2).groups,
        kv.1 = g1.key → kv.2.registered = true))) :=
  ⟨rfl, rfl, rfl, add_group_content_merge {} _ _ rfl rfl rfl⟩

/-- C9: a population-bound group rejects `set_attr`/`set_rel` without the
force flag with `GroupFrozenError` (raised before any mutation, so the maps
are untouched); a standalone group's `set_attr`/`set_rel` succeed, update
the map, and reset the cached hash to the unset sentinel. -/
theorem set_attr_rel_frozen_protection (g : SGroup) (name : String) (value : Val) :
    (g.registered = true →
       g.set_attr name value false = .error .groupFrozen ∧
       g.set_rel name value false = .error .groupFrozen) ∧
    (g.registered = false →
       g.set_attr name value false =
         .ok { g with attr := dSet g.attr name value, hashCache := none } ∧
       g.set_rel name value false =
         .ok { g with rel := dSet g.rel name value, hashCache := none }) := by
  constructor
  · intro hr
    constructor
    · rw [SGroup.set_attr, if_pos ⟨hr, by simp⟩]
    · rw [SGroup.set_rel, if_pos ⟨hr, by simp⟩]
  · intro hr
    constructor
    · rw [SGroup.set_attr, if_neg (by simp [hr])]
    · rw [SGroup.set_rel, if_neg (by simp [hr]), if_pos hr]

/-- Witness for C9: a registered group (`{'a': 1}`, bound) errors on both
setters; the same group standalone succeeds on both. -/
theorem set_attr_rel_frozen_protection_witness :
    (let gR : SGroup := { m := 1, attr := [("a", Val.vI 1)], registered := true,
                          hashCache := some 7 }
     let gS : SGroup := { m := 1, attr := [("a", Val.vI 1)], registered := false,
                          hashCache := some 7 }
     (gR.registered = true ∧
      gR.set_attr "b" (Val.vI 2) false = .error .groupFrozen ∧
      gR.set_rel "b" (Val.vI 2) false = .error .groupFrozen) ∧
     (gS.registered = false ∧
      gS.set_attr "b" (Val.vI 2) false =
        .ok { gS with attr := dSet gS.attr "b" (Val.vI 2), hashCache := none } ∧
      gS.set_rel "b" (Val.vI 2) false =
        .ok { gS with rel := dSet gS.rel "b" (Val.vI 2), hashCache := none })) := by
  refine ⟨⟨rfl, ?_⟩, ⟨rfl, ?_⟩⟩
  · exact (set_attr_rel_frozen_protection _ "b" (Val.vI 2)).1 rfl
  · exact (set_attr_rel_frozen_protection _ "b" (Val.vI 2)).2 rfl

end Pram

namespace Pram

/-! ## Rules and per-group rule combination (`Group.apply_rules`,
entity.py:1137-1236)

`pram/rule.py` is absent from the snapshot, so the rule interface is
modelled from the spec. -/

/-- Modelled from the spec: the Rule contract (§6) —
`is_applicable(group, iter, t) → bool` and
`apply(pop, group, iter, t) → list[SplitSpec] | None`.  Spec §5 requires
rule callables to be pure functions of the read-only population view, the
group and the time, and to mutate nothing, so they are embedded as pure
functions (the population view argument is dropped: it contributes no state
the embedded rules read). -/
structure Rule where
  is_applicable : SGroup → ℕ → ℕ → Bool
  apply : SGroup → ℕ → ℕ → Option (List GroupSplitSpec)

/-- `itertools.product(*lists)`: all selections, last list varying
fastest. -/
def cartProd : List (List GroupSplitSpec) → List (List GroupSplitSpec)
  | [] => [[]]
  | l :: ls => l.flatMap (fun a => (cartProd ls).map (a :: ·))

/-- Step (2) of `apply_rules`: one combined split spec from one tuple of
the Cartesian product — probabilities multiply (starting from `p = 1.0`),
set-maps merge by successive `dict.update` (later rule wins on a key
conflict), delete-sets union. -/
def combineSpecs (l : List GroupSplitSpec) : GroupSplitSpec :=
  l.foldl
    (fun acc s =>
      { p := acc.p * s.p,
        attr_set := dUpdate acc.attr_set s.attr_set,
        attr_del := acc.attr_del ++ s.attr_del,
        rel_set := dUpdate acc.rel_set s.rel_set,
        rel_del := acc.rel_del ++ s.rel_del })
    { p := 1, attr_set := [], attr_del := [], rel_set := [], rel_del := [] }

/-- `Group.apply_rules` in normal mode: collect the split-spec lists of the
applicable rules that returned one; no result anywhere means the group does
not split (`None`); otherwise split on the combined Cartesian product. -/
def SGroup.apply_rules (fm : Bool) (g : SGroup) (rules : List Rule)
    (iter t : ℕ) : Option (List SGroup) :=
  let ss_rules := (rules.filter (fun r => r.is_applicable g iter t)).filterMap
    (fun r => r.apply g iter t)
  if ss_rules.isEmpty then none
  else some (g.split fm ((cartProd ss_rules).map combineSpecs))

/-! ## Population-level rule application and mass transfer
(`GroupPopulation.apply_rules` / `transfer_mass`, pop.py:283-318, 588-652) -/

/-- `transfer_mass(src_group_hashes, mass_flow_specs, ...)`: zero every
participating source's mass first, then merge each destination in.  The
source's `self.groups.get(g01)` (pop.py:621) looks a `Group` object up in
an int-keyed dict; `Group.__eq__` rejects non-`Group` operands, so the
lookup never hits and every destination goes through `add_group` — which
performs the same merge-or-register step.  The site relink, query-cache
reset and history archiving (pop.py:642-650) touch no group or mass state
and are omitted. -/
def transferMass (pop : Pop) (srcKeys : List GKey)
    (mfs : List (GKey × List SGroup)) : Pop :=
  let pop1 : Pop := { pop with groups := pop.groups.map (fun kv =>
    if srcKeys.contains kv.1 then (kv.1, { kv.2 with m := 0 }) else kv) }
  (mfs.flatMap Prod.snd).foldl addGroup pop1

/-- `GroupPopulation.apply_rules(rules, iter, t)`: apply the rules to every
registered group, collect `(source, destinations)` pairs where a split
occurred; nothing split anywhere ⇒ no-op, else transfer the mass. -/
def applyRulesPop (fm : Bool) (pop : Pop) (rules : List Rule) (iter t : ℕ) : Pop :=
  let mfs := pop.groups.filterMap (fun kv =>
    (kv.2.apply_rules fm rules iter t).map (fun dst => (kv.1, dst)))
  if mfs.isEmpty then pop
  else transferMass pop (mfs.map Prod.fst) mfs

/-! ## The simulation iteration loop (`Simulation.run`, sim.py:1481-1639)

Each pass of the loop body (sim.py:1556-1604) calls
`self.pop.apply_rules(self.rules, timer.get_i(), timer.get_t())`, runs the
probes (read-only), advances the timer and evaluates autostop/autocompact.
With the default pragmas (`autocompact` off) the only population mutation
per iteration is `apply_rules`; the loop never invokes
`GroupPopulation.do_post_iter`, and neither does any other call site in the
snapshot. -/
def simRun (fm : Bool) (rules : List Rule) (n : ℕ) (pop : Pop) : Pop :=
  (List.range n).foldl (fun p i => applyRulesPop fm p rules i i) pop

/-- A rule that fires only at iteration 0 and sends the whole group to a
VOID destination (`attr_set = Group.VOID`). -/
def voidRule : Rule :=
  { is_applicable := fun _ iter _ => iter == 0,
    apply := fun _ _ _ => some [{ p := 1, attr_set := [("__void__", Val.vB true)] }] }

end Pram

namespace Pram

/-! ## Claim theorems: the missing post-iteration cleanup (C2)

A failing scenario for the claimed apply-rules → transfer → cleanup
ordering: one registered group, one rule that flags it VOID in iteration 0.
Since `Simulation.run`'s loop never calls `do_post_iter`, the VOID group is
still registered when iteration 1's `apply_rules` runs, and remains so
forever; its mass is never debited. -/

def voidSpec : GroupSplitSpec := { p := 1, attr_set := [("__void__", Val.vB true)] }

def keyLive : GKey := ([("x", Val.vI 1)], [])

def keyVoid : GKey := ([("x", Val.vI 1), ("__void__", Val.vB true)], [])

def liveGroup : SGroup := { m := 100, attr := [("x", Val.vI 1)], registered := true }

def voidDest : SGroup := { m := 100, attr := [("x", Val.vI 1), ("__void__", Val.vB true)] }

def simSt0 : Pop := { groups := [(keyLive, liveGroup)], m := 100, is_frozen := true }

def simSt1 : Pop := { groups := [(keyLive, { liveGroup with m := 0 }), (keyVoid, voidDest.freeze)],
                      m := 100, is_frozen := true }

theorem simSplit_eval :
    SGroup.split true liveGroup ((cartProd [[voidSpec]]).map combineSpecs) = [voidDest] := by
  rw [SGroup.split]
  rw [show ((cartProd [[voidSpec]]).map combineSpecs).map GroupSplitSpec.p = [1 * 1] from rfl]
  rw [splitMasses_true, splitMassList, splitGo]
  norm_num [gen_dict, dUpdate, dSet, dGet, dHasKey, dDel, voidDest, liveGroup, voidSpec,
    cartProd, combineSpecs, List.filterMap_cons, List.filterMap_nil, List.find?]
  decide

theorem simApply_eval : liveGroup.apply_rules true [voidRule] 0 0 = some [voidDest] := by
  rw [SGroup.apply_rules]
  rw [show ([voidRule].filter (fun r => r.is_applicable liveGroup 0 0)).filterMap
      (fun r => r.apply liveGroup 0 0) = [[voidSpec]] from rfl]
  rw [if_neg (by decide)]
  rw [simSplit_eval]

theorem simIter0_eval : applyRulesPop true simSt0 [voidRule] 0 0 = simSt1 := by
  rw [applyRulesPop]
  rw [show simSt0.groups.filterMap (fun kv =>
      (kv.2.apply_rules true [voidRule] 0 0).map (fun dst => (kv.1, dst)))
      = [(keyLive, [voidDest])] from by
    rw [show simSt0.groups = [(keyLive, liveGroup)] from rfl]
    rw [List.filterMap_cons]
    rw [show ((keyLive, liveGroup).2.apply_rules true [voidRule] 0 0)
      = some [voidDest] from simApply_eval]
    rfl]
  rw [if_neg (by decide)]
  rw [transferMass]
  rw [show ([(keyLive, [voidDest])].flatMap Prod.snd) = [voidDest] from rfl]
  rw [List.foldl_cons, List.foldl_nil]
  rw [addGroup]
  norm_num [simSt0, simSt1, keyLive, keyVoid, liveGroup, voidDest, plookup,
    SGroup.key, SGroup.freeze, List.find?]

theorem simIter1_eval : applyRulesPop true simSt1 [voidRule] 1 1 = simSt1 := by
  rw [applyRulesPop]
  rw [show simSt1.groups.filterMap (fun kv =>
      (kv.2.apply_rules true [voidRule] 1 1).map (fun dst => (kv.1, dst)))
      = [] from rfl]
  rw [if_pos (by decide)]

/-- C2 evaluated at the failing scenario: after iteration 1 the population
contains a VOID group; iteration 2 begins (and ends) with that VOID group
still registered — `Simulation.run`'s loop (sim.py:1556-1604) contains no
`do_post_iter` call, so `apply_rules` of iteration 2 operates on a
population still holding the VOID group from iteration 1, whose mass 100
was never debited. -/
theorem run_loop_never_cleans_void :
    ((simRun true [voidRule] 1 simSt0).groups.any (fun kv => isVoid kv.2) = true) ∧
    simRun true [voidRule] 2 simSt0 = simRun true [voidRule] 1 simSt0 ∧
    massAt (simRun true [voidRule] 2 simSt0).groups keyVoid = 100 ∧
    (simRun true [voidRule] 2 simSt0).m = 100 := by
  have h1 : simRun true [voidRule] 1 simSt0 = simSt1 := by
    rw [simRun]
    rw [show List.range 1 = [0] from rfl]
    rw [List.foldl_cons, List.foldl_nil, simIter0_eval]
  have h2 : simRun true [voidRule] 2 simSt0 = simSt1 := by
    rw [simRun]
    rw [show List.range 2 = [0, 1] from rfl]
    rw [List.foldl_cons, List.foldl_cons, List.foldl_nil, simIter0_eval, simIter1_eval]
  refine ⟨?_, by rw [h1, h2], ?_, ?_⟩
  · rw [h1]
    decide
  · rw [h2]
    norm_num [simSt1, massAt, keyVoid, keyLive, liveGroup, voidDest, SGroup.freeze,
      List.filter]
  · rw [h2]
    rfl

end Pram

namespace Pram

/-! ## Claim theorems: rule order (C5)

Two always-applicable rules.  `ruleA`'s spec probabilities sum to 3/2 (the
source allows this: "probabilities need not individually sum to 1"), which
makes the complement/early-stop treatment of the combined spec list depend
on the enumeration order of the Cartesian product. -/

def ruleA : Rule :=
  { is_applicable := fun _ _ _ => true,
    apply := fun _ _ _ => some [{ p := 1, attr_set := [("x", Val.vI 1)] },
                                { p := 1/2, attr_set := [("x", Val.vI 2)] }] }

def ruleB : Rule :=
  { is_applicable := fun _ _ _ => true,
    apply := fun _ _ _ => some [{ p := 1/2, attr_set := [("y", Val.vI 1)] },
                                { p := 1/2, attr_set := [("y", Val.vI 2)] }] }

def gC5 : SGroup := { m := 1 }

set_option maxHeartbeats 1000000 in
theorem c5_outAB : gC5.apply_rules true [ruleA, ruleB] 0 0 =
    some [{ m := 1/2, attr := [("x", Val.vI 1), ("y", Val.vI 1)] },
          { m := 1/2, attr := [("x", Val.vI 1), ("y", Val.vI 2)] }] := by
  rw [SGroup.apply_rules]
  rw [if_neg (by decide)]
  rw [SGroup.split]
  norm_num +decide [gC5, ruleA, ruleB, cartProd, combineSpecs, splitMasses_true,
    splitMassList, splitGo, gen_dict, dUpdate, dSet, dGet, dHasKey, dDel,
    List.filterMap_cons, List.filterMap_nil, List.find?]

set_option maxHeartbeats 1000000 in
theorem c5_outBA : gC5.apply_rules true [ruleB, ruleA] 0 0 =
    some [{ m := 1/2, attr := [("y", Val.vI 1), ("x", Val.vI 1)] },
          { m := 1/4, attr := [("y", Val.vI 1), ("x", Val.vI 2)] },
          { m := 1/2, attr := [("y", Val.vI 2), ("x", Val.vI 1)] },
          { m := -(1/4), attr := [("y", Val.vI 2), ("x", Val.vI 2)] }] := by
  rw [SGroup.apply_rules]
  rw [if_neg (by decide)]
  rw [SGroup.split]
  norm_num +decide [gC5, ruleA, ruleB, cartProd, combineSpecs, splitMasses_true,
    splitMassList, splitGo, gen_dict, dUpdate, dSet, dGet, dHasKey, dDel,
    List.filterMap_cons, List.filterMap_nil, List.find?]

/-- C5 counterexample: applying `[A, B]` and `[B, A]` to the same group at
the same iteration yields different (content, mass) destination sets —
`[B, A]` produces a destination of content `{x: 2, y: 1}` with mass 1/4
while every `[A, B]` destination has `x = 1`.  (With `ruleA`'s
probabilities summing to 3/2, the running-sum break fires early in one
enumeration order and the final-spec complement goes negative in the
other.) -/
theorem apply_rules_order_dependent :
    ∃ lab lba,
      gC5.apply_rules true [ruleA, ruleB] 0 0 = some lab ∧
      gC5.apply_rules true [ruleB, ruleA] 0 0 = some lba ∧
      (∃ d ∈ lba, d.m = 1/4 ∧ dGet d.attr "x" = some (Val.vI 2) ∧
        dGet d.attr "y" = some (Val.vI 1)) ∧
      (∀ d ∈ lab, dGet d.attr "x" = some (Val.vI 1)) := by
  refine ⟨_, _, c5_outAB, c5_outBA, ?_, ?_⟩
  · refine ⟨{ m := 1/4, attr := [("y", Val.vI 1), ("x", Val.vI 2)] }, ?_, ?_, rfl, rfl⟩
    · simp
    · norm_num
  · intro d hd
    rcases List.mem_cons.mp hd with rfl | hd2
    · rfl
    · rcases List.mem_cons.mp hd2 with rfl | hd3
      · rfl
      · exact absurd hd3 (by simp)

end Pram

namespace Pram

/-! ## Dictionary extensionality

`dGet`-pointwise characterisations of the dictionary operations, the
last-occurrence function `dLast`, and a canonical (key-sorted) form for
comparing dictionary contents irrespective of insertion order. -/

theorem dGet_nil (k : String) : dGet [] k = none := rfl

theorem dGet_cons (kv : String × Val) (d : Dict) (k : String) :
    dGet (kv :: d) k = if kv.1 = k then some kv.2 else dGet d k := by
  rw [dGet, List.find?_cons]
  by_cases h : kv.1 = k
  · simp [h]
  · simp [h, dGet]

theorem dHasKey_cons (kv : String × Val) (d : Dict) (k : String) :
    dHasKey (kv :: d) k = if kv.1 = k then true else dHasKey d k := by
  rw [dHasKey, dGet_cons]
  by_cases h : kv.1 = k
  · simp [h]
  · simp [h, dHasKey]

theorem dGet_append (d1 d2 : Dict) (k : String) :
    dGet (d1 ++ d2) k = match dGet d1 k with
      | some v => some v
      | none => dGet d2 k := by
  induction d1 with
  | nil => simp [dGet_nil]
  | cons kv t ih =>
    rw [List.cons_append, dGet_cons, dGet_cons]
    by_cases h : kv.1 = k
    · simp [h]
    · simp [h, ih]

theorem dGet_mapSet (d : Dict) (k0 : String) (v : Val) (k : String) :
    dGet (d.map (fun kv => if kv.1 = k0 then (k0, v) else kv)) k =
      if k0 = k then (if dHasKey d k0 then some v else none) else dGet d k := by
  induction d with
  | nil => simp [dGet_nil, dHasKey]
  | cons kv t ih =>
    rw [List.map_cons, dGet_cons, dGet_cons, dHasKey_cons]
    by_cases h0 : kv.1 = k0 <;> by_cases hk : k0 = k
    · subst hk
      simp [h0]
    · have hkk : ¬ kv.1 = k := by rw [h0]; exact hk
      simp [h0, hk, hkk, ih]
    · subst hk
      simp [h0, ih]
    · simp [h0, hk, ih]

theorem dGet_dSet (d : Dict) (k0 : String) (v : Val) (k : String) :
    dGet (dSet d k0 v) k = if k0 = k then some v else dGet d k := by
  rw [dSet]
  by_cases hhas : dHasKey d k0
  · rw [if_pos hhas, dGet_mapSet]
    simp [hhas]
  · rw [if_neg hhas, dGet_append]
    by_cases hk : k0 = k
    · subst hk
      have hg : dGet d k0 = none := by
        cases h : dGet d k0 with
        | none => rfl
        | some v2 => exact absurd (by simp [dHasKey, h]) hhas
      rw [hg]
      simp [dGet_cons, dGet_nil]
    · cases hg : dGet d k with
      | some v2 => simp [hk]
      | none => simp [dGet_cons, dGet_nil, hk]

/-- The value attached to the *last* occurrence of a key (Python
`dict.update` semantics: later items win). -/
def dLast : Dict → String → Option Val
  | [], _ => none
  | kv :: u, k =>
    match dLast u k with
    | some v => some v
    | none => if kv.1 = k then some kv.2 else none

theorem dGet_dUpdate (d u : Dict) (k : String) :
    dGet (dUpdate d u) k = match dLast u k with
      | some v => some v
      | none => dGet d k := by
  induction u generalizing d with
  | nil => rfl
  | cons kv u2 ih =>
    rw [show dUpdate d (kv :: u2) = dUpdate (dSet d kv.1 kv.2) u2 from rfl, ih]
    rw [dLast]
    cases hl : dLast u2 k with
    | some v => rfl
    | none =>
      rw [dGet_dSet]
      by_cases h : kv.1 = k
      · rw [if_pos h, if_pos h]
      · rw [if_neg h, if_neg h]

theorem dGet_dDel (d : Dict) (ks : List String) (k : String) :
    dGet (dDel d ks) k = if ks.contains k then none else dGet d k := by
  induction d with
  | nil => simp [dDel, dGet_nil]
  | cons kv t ih =>
    rw [dDel, List.filter_cons]
    rw [show List.filter (fun kv => !ks.contains kv.1) t = dDel t ks from rfl]
    by_cases hin : ks.contains kv.1
    · simp only [hin, Bool.not_true, if_neg, Bool.false_eq_true, not_false_eq_true]
      rw [ih]
      by_cases hk : ks.contains k
      · rw [if_pos hk, if_pos hk]
      · rw [if_neg hk, if_neg hk, dGet_cons]
        have : ¬ kv.1 = k := fun he => hk (he ▸ hin)
        rw [if_neg this]
    · simp only [hin, Bool.not_false, if_pos]
      rw [dGet_cons, dGet_cons, ih]
      by_cases hk : kv.1 = k
      · rw [if_pos hk, if_pos hk]
        have : ¬ ks.contains k = true := fun hc => hin (hk ▸ hc)
        rw [if_neg this]
      · rw [if_neg hk, if_neg hk]

theorem dGet_gen_dict (d u : Dict) (del : List String) (k : String) :
    dGet (gen_dict d u del) k =
      if del.contains k then none
      else match dLast u k with
        | some v => some v
        | none => dGet d k := by
  rw [gen_dict]
  by_cases hsc : u.isEmpty && del.isEmpty
  · rw [if_pos hsc]
    have hu : u = [] := List.isEmpty_iff.mp (by
      cases hu2 : u.isEmpty
      · rw [hu2] at hsc; simp at hsc
      · rfl)
    have hdel : del = [] := List.isEmpty_iff.mp (by
      cases hd2 : del.isEmpty
      · rw [hd2] at hsc; simp at hsc
      · rfl)
    subst hu hdel
    simp [dLast]
  · rw [if_neg hsc, dGet_dDel, dGet_dUpdate]

end Pram

namespace Pram

/-! ## List helpers for the order-independence argument -/

theorem sum_flatMap_eq {α : Type} (f : α → List ℚ) (l : List α) :
    (l.flatMap f).sum = (l.map (fun a => (f a).sum)).sum := by
  induction l with
  | nil => rfl
  | cons a t ih => simp [List.flatMap_cons, ih]

theorem flatMap_congr_mem {α β : Type} (l : List α) (f g : α → List β)
    (h : ∀ a ∈ l, f a = g a) : l.flatMap f = l.flatMap g := by
  induction l with
  | nil => rfl
  | cons a t ih =>
    rw [List.flatMap_cons, List.flatMap_cons, h a (List.mem_cons_self a t),
      ih (fun a ha => h a (List.mem_cons_of_mem _ ha))]

theorem filterMap_congr_mem {α β : Type} (l : List α) (f g : α → Option β)
    (h : ∀ a ∈ l, f a = g a) : l.filterMap f = l.filterMap g := by
  induction l with
  | nil => rfl
  | cons a t ih =>
    rw [List.filterMap_cons, List.filterMap_cons, h a (List.mem_cons_self a t),
      ih (fun a ha => h a (List.mem_cons_of_mem _ ha))]

theorem zip_self_map {α β : Type} (l : List α) (f : α → β) :
    l.zip (l.map f) = l.map (fun a => (a, f a)) := by
  induction l with
  | nil => rfl
  | cons a t ih => simp [ih]

theorem filterMap_flatMap_eq {α β γ : Type} (l : List α) (f : α → List β)
    (g : β → Option γ) :
    (l.flatMap f).filterMap g = l.flatMap (fun a => (f a).filterMap g) := by
  induction l with
  | nil => rfl
  | cons a t ih => simp [List.flatMap_cons, List.filterMap_append, ih]

theorem map_cons_flatMap_perm {α β : Type} (l : List α) (f : α → β)
    (g : α → List β) :
    (l.map f ++ l.flatMap g).Perm (l.flatMap (fun a => f a :: g a)) := by
  induction l with
  | nil => simp
  | cons a t ih =>
    rw [List.map_cons, List.flatMap_cons, List.flatMap_cons, List.cons_append]
    refine List.Perm.cons (f a) ?_
    rw [← List.append_assoc]
    refine List.Perm.trans (List.Perm.append_right _ List.perm_append_comm) ?_
    rw [List.append_assoc]
    exact ih.append_left _

theorem flatMap_map_transpose {α β γ : Type} (la : List α) (lb : List β)
    (H : α → β → γ) :
    (la.flatMap fun a => lb.map (fun b => H a b)).Perm
      (lb.flatMap fun b => la.map (fun a => H a b)) := by
  induction la with
  | nil => simp
  | cons a t ih =>
    rw [List.flatMap_cons]
    refine List.Perm.trans ?_ (map_cons_flatMap_perm lb (fun b => H a b)
      (fun b => t.map (fun a => H a b)))
    exact ih.append_left _

theorem flatMap_filterMap_transpose {α β γ : Type} (la : List α) (lb : List β)
    (H : α → β → Option γ) :
    (la.flatMap fun a => lb.filterMap (fun b => H a b)).Perm
      (lb.flatMap fun b => la.filterMap (fun a => H a b)) := by
  have h1 : (la.flatMap fun a => lb.filterMap (fun b => H a b)) =
      (la.flatMap fun a => lb.map (fun b => H a b)).filterMap id := by
    rw [filterMap_flatMap_eq]
    refine flatMap_congr_mem _ _ _ (fun a _ => ?_)
    rw [List.filterMap_map]
    rfl
  have h2 : (lb.flatMap fun b => la.filterMap (fun a => H a b)) =
      (lb.flatMap fun b => la.map (fun a => H a b)).filterMap id := by
    rw [filterMap_flatMap_eq]
    refine flatMap_congr_mem _ _ _ (fun b _ => ?_)
    rw [List.filterMap_map]
    rfl
  rw [h1, h2]
  exact (flatMap_map_transpose la lb H).filterMap id

end Pram

namespace Pram

/-! ## Key sets, nodup keys, and `dLast` versus `dGet` -/

theorem dHasKey_iff_mem (d : Dict) (k : String) :
    dHasKey d k = true ↔ k ∈ dKeys d := by
  induction d with
  | nil => simp [dHasKey, dGet_nil, dKeys]
  | cons kv t ih =>
    rw [dHasKey_cons]
    simp only [dKeys, List.map_cons, List.mem_cons]
    by_cases h : kv.1 = k
    · simp [h]
    · rw [if_neg h]
      constructor
      · intro hh
        exact Or.inr ((ih).mp hh)
      · intro hh
        rcases hh with hh | hh
        · exact absurd hh.symm h
        · exact (ih).mpr hh

theorem dKeys_dSet (d : Dict) (k : String) (v : Val) :
    dKeys (dSet d k v) = if dHasKey d k then dKeys d else dKeys d ++ [k] := by
  rw [dSet]
  by_cases h : dHasKey d k
  · rw [if_pos h, if_pos h]
    rw [dKeys, dKeys, List.map_map]
    refine List.map_congr_left (fun kv _ => ?_)
    by_cases hkv : kv.1 = k
    · simp [hkv]
    · simp [hkv]
  · rw [if_neg h, if_neg h, dKeys, dKeys, List.map_append]
    rfl

theorem nodup_dKeys_dSet (d : Dict) (k : String) (v : Val)
    (h : (dKeys d).Nodup) : (dKeys (dSet d k v)).Nodup := by
  rw [dKeys_dSet]
  by_cases hh : dHasKey d k
  · rw [if_pos hh]; exact h
  · rw [if_neg hh]
    refine List.Nodup.append h (List.nodup_singleton k) ?_
    intro a ha hb
    rw [List.mem_singleton] at hb
    subst hb
    exact hh ((dHasKey_iff_mem d a).mpr ha)

theorem nodup_dKeys_dUpdate (u : Dict) :
    ∀ d : Dict, (dKeys d).Nodup → (dKeys (dUpdate d u)).Nodup := by
  induction u with
  | nil => intro d h; exact h
  | cons kv u2 ih =>
    intro d h
    rw [show dUpdate d (kv :: u2) = dUpdate (dSet d kv.1 kv.2) u2 from rfl]
    exact ih _ (nodup_dKeys_dSet d kv.1 kv.2 h)

theorem dLast_eq_dGet_of_nodup (d : Dict) (k : String)
    (h : (dKeys d).Nodup) : dLast d k = dGet d k := by
  induction d with
  | nil => rfl
  | cons kv t ih =>
    simp only [dKeys, List.map_cons, List.nodup_cons] at h
    rw [dLast, ih h.2, dGet_cons]
    by_cases hk : kv.1 = k
    · have hnone : dGet t k = none := by
        cases hg : dGet t k with
        | none => rfl
        | some v =>
          exfalso
          apply h.1
          rw [hk]
          exact (dHasKey_iff_mem t k).mp (by simp [dHasKey, hg])
      rw [hnone, if_pos hk]
    · rw [if_neg hk]
      cases hg : dGet t k with
      | none => rw [if_neg hk]
      | some v => rw [if_neg hk]

theorem dGet_dUpdate_nil (u : Dict) (k : String) :
    dGet (dUpdate [] u) k = dLast u k := by
  rw [dGet_dUpdate]
  cases dLast u k with
  | none => rfl
  | some v => rfl

theorem dLast_upd2 (a b : Dict) (k : String) :
    dLast (dUpdate (dUpdate [] a) b) k =
      match dLast b k with
      | some v => some v
      | none => dLast a k := by
  rw [dLast_eq_dGet_of_nodup _ _
    (nodup_dKeys_dUpdate b _ (nodup_dKeys_dUpdate a [] List.nodup_nil))]
  rw [dGet_dUpdate]
  cases dLast b k with
  | some v => rfl
  | none => exact dGet_dUpdate_nil a k

theorem dLast_none_of_hasKey_false (u : Dict) (k : String)
    (h : dHasKey u k = false) : dLast u k = none := by
  induction u with
  | nil => rfl
  | cons kv t ih =>
    rw [dHasKey_cons] at h
    by_cases hk : kv.1 = k
    · rw [if_pos hk] at h
      exact absurd h (by simp)
    · rw [if_neg hk] at h
      rw [dLast, ih h]
      simp [hk]

/-- The two orders of a two-rule `dict.update` chain agree pointwise on
keys, provided no key is written by both rules; the delete lists commute
because only membership matters. -/
theorem dGet_comb_comm (d aset bset : Dict) (dela delb : List String)
    (hdisj : ∀ k, dHasKey aset k = false ∨ dHasKey bset k = false)
    (k : String) :
    dGet (gen_dict d (dUpdate (dUpdate [] aset) bset) (dela ++ delb)) k =
      dGet (gen_dict d (dUpdate (dUpdate [] bset) aset) (delb ++ dela)) k := by
  rw [dGet_gen_dict, dGet_gen_dict]
  by_cases hm : k ∈ dela ++ delb
  · have h1 : (dela ++ delb).contains k = true := List.elem_iff.mpr hm
    have h2 : (delb ++ dela).contains k = true := by
      refine List.elem_iff.mpr ?_
      rw [List.mem_append] at hm ⊢
      exact hm.symm
    rw [if_pos h1, if_pos h2]
  · have h1 : ¬((dela ++ delb).contains k = true) :=
      fun hc => hm (List.elem_iff.mp hc)
    have h2 : ¬((delb ++ dela).contains k = true) := by
      intro hc
      apply hm
      have := List.elem_iff.mp hc
      rw [List.mem_append] at this ⊢
      exact this.symm
    rw [if_neg h1, if_neg h2, dLast_upd2, dLast_upd2]
    rcases hdisj k with hd | hd
    · rw [dLast_none_of_hasKey_false aset k hd]
      cases dLast bset k with
      | some v => rfl
      | none => rfl
    · rw [dLast_none_of_hasKey_false bset k hd]
      cases dLast aset k with
      | some v => rfl
      | none => rfl

end Pram

namespace Pram

/-! ## `Group.split` when the probabilities sum to one

When the split-spec probabilities are nonnegative and sum exactly to 1,
the last-spec complement and the early break of `Group.split` are both
inert: every destination mass is just `M * p`. -/

theorem all_zero_of_sum_zero (l : List ℚ) (hnn : ∀ p ∈ l, 0 ≤ p)
    (hs : l.sum = 0) : ∀ p ∈ l, p = 0 := by
  induction l with
  | nil => intro p hp; exact absurd hp (List.not_mem_nil p)
  | cons a t ih =>
    rw [List.sum_cons] at hs
    have ha : 0 ≤ a := hnn a (List.mem_cons_self a t)
    have ht : 0 ≤ t.sum :=
      List.sum_nonneg (fun p hp => hnn p (List.mem_cons_of_mem a hp))
    intro p hp
    rcases List.mem_cons.mp hp with hp | hp
    · subst hp; linarith
    · exact ih (fun p hp => hnn p (List.mem_cons_of_mem a hp)) (by linarith) p hp

theorem map_eq_replicate_of_all_zero (M : ℚ) (l : List ℚ)
    (h : ∀ p ∈ l, p = 0) :
    l.map (fun p => M * p) = List.replicate l.length 0 := by
  induction l with
  | nil => rfl
  | cons a t ih =>
    rw [List.map_cons, List.length_cons, List.replicate_succ,
      h a (List.mem_cons_self a t), mul_zero,
      ih (fun p hp => h p (List.mem_cons_of_mem a hp))]

theorem splitGo_map_of_sum_one (M : ℚ) :
    ∀ (ps : List ℚ) (pSum mSum : ℚ), mSum = M * pSum →
      (∀ p ∈ ps, 0 ≤ p) → pSum + ps.sum = 1 →
      splitGo M pSum mSum ps = ps.map (fun p => M * p)
  | [], _, _ => fun _ _ _ => rfl
  | [p], pSum, mSum => by
    intro hm hnn hs
    rw [List.sum_cons, List.sum_nil] at hs
    have hp : p = 1 - pSum := by linarith
    rw [splitGo, List.map_cons, List.map_nil, hm, hp]
    congr 1
    ring
  | p :: q :: rest, pSum, mSum => by
    intro hm hnn hs
    rw [List.sum_cons] at hs
    by_cases h : pSum + p = 1
    · rw [splitGo]
      simp only [h, if_pos]
      rw [List.map_cons]
      congr 1
      have hz : (q :: rest).sum = 0 := by linarith
      rw [(map_eq_replicate_of_all_zero M (q :: rest)
        (all_zero_of_sum_zero (q :: rest)
          (fun x hx => hnn x (List.mem_cons_of_mem p hx)) hz)).symm]
    · rw [splitGo]
      simp only [h, if_neg, if_false]
      rw [List.map_cons]
      congr 1
      refine splitGo_map_of_sum_one M (q :: rest) (pSum + p) (mSum + M * p)
        (by rw [hm]; ring) (fun x hx => hnn x (List.mem_cons_of_mem p hx))
        (by rw [List.sum_cons] at hs ⊢; linarith)

/-- In fractional-mass mode, with nonnegative probabilities summing to 1,
`Group.split` emits exactly one destination of mass `m * p` per spec of
nonzero product, with the spec's set/delete maps applied. -/
theorem split_sum_one (g : SGroup) (specs : List GroupSplitSpec)
    (hnn : ∀ s ∈ specs, 0 ≤ s.p)
    (hs : (specs.map GroupSplitSpec.p).sum = 1) :
    g.split true specs = specs.filterMap (fun s =>
      if g.m * s.p = 0 then none
      else some { m := g.m * s.p,
                  attr := gen_dict g.attr s.attr_set s.attr_del,
                  rel := gen_dict g.rel s.rel_set s.rel_del }) := by
  rw [SGroup.split]
  have hmasses : splitMasses true g.m (specs.map GroupSplitSpec.p) =
      (specs.map GroupSplitSpec.p).map (fun p => g.m * p) := by
    rw [splitMasses_true, splitMassList]
    refine splitGo_map_of_sum_one g.m _ 0 0 (mul_zero g.m).symm ?_ ?_
    · intro p hp
      rcases List.mem_map.mp hp with ⟨s, hsmem, hsp⟩
      rw [← hsp]
      exact hnn s hsmem
    · rw [zero_add, hs]
  rw [hmasses, List.map_map, zip_self_map, List.filterMap_map]
  rfl

end Pram

namespace Pram

/-! ## Canonical dictionary and group content

Two Python dicts are `==` when they agree as maps; the canonical form
sorts the key set and reads each value through `dGet`, so dictionaries
equal as maps get syntactically equal canonical forms. -/

def canonDict (d : Dict) : Dict :=
  (List.insertionSort (fun a b : String => a ≤ b) (dKeys d).dedup).map
    (fun k => (k, (dGet d k).getD (Val.vB false)))

/-- The order-insensitive content of a destination group: canonical
attributes, canonical relations, and mass. -/
def canonGroup (g : SGroup) : Dict × Dict × ℚ :=
  (canonDict g.attr, canonDict g.rel, g.m)

theorem canonDict_ext (d1 d2 : Dict) (h : ∀ k, dGet d1 k = dGet d2 k) :
    canonDict d1 = canonDict d2 := by
  have hmem : ∀ k, k ∈ (dKeys d1).dedup ↔ k ∈ (dKeys d2).dedup := by
    intro k
    rw [List.mem_dedup, List.mem_dedup, ← dHasKey_iff_mem, ← dHasKey_iff_mem,
      dHasKey, dHasKey, h k]
  have hpd : (dKeys d1).dedup.Perm (dKeys d2).dedup :=
    (List.perm_ext_iff_of_nodup (List.nodup_dedup _) (List.nodup_dedup _)).mpr hmem
  have hperm : (List.insertionSort (fun a b : String => a ≤ b) (dKeys d1).dedup).Perm
      (List.insertionSort (fun a b : String => a ≤ b) (dKeys d2).dedup) :=
    ((List.perm_insertionSort _ _).trans hpd).trans (List.perm_insertionSort _ _).symm
  have heq := List.eq_of_perm_of_sorted hperm
    (List.sorted_insertionSort _ _) (List.sorted_insertionSort _ _)
  rw [canonDict, canonDict, heq]
  exact List.map_congr_left (fun k _ => by rw [h k])

/-! ## The two-rule Cartesian product, combined specs, and emitted
destinations -/

/-- One destination option per combined spec, as produced by
`Group.split` in fractional mode with probabilities summing to 1. -/
def splitEmitOpt (g : SGroup) (s : GroupSplitSpec) : Option SGroup :=
  if g.m * s.p = 0 then none
  else some { m := g.m * s.p,
              attr := gen_dict g.attr s.attr_set s.attr_del,
              rel := gen_dict g.rel s.rel_set s.rel_del }

/-- A destination option reduced to its order-insensitive content. -/
def emitContent (g : SGroup) (s : GroupSplitSpec) : Option (Dict × Dict × ℚ) :=
  (splitEmitOpt g s).map canonGroup

theorem split_sum_one_emit (g : SGroup) (specs : List GroupSplitSpec)
    (hnn : ∀ s ∈ specs, 0 ≤ s.p)
    (hs : (specs.map GroupSplitSpec.p).sum = 1) :
    g.split true specs = specs.filterMap (splitEmitOpt g) :=
  split_sum_one g specs hnn hs

theorem combineSpecs_pair (a b : GroupSplitSpec) :
    combineSpecs [a, b] =
      { p := a.p * b.p,
        attr_set := dUpdate (dUpdate [] a.attr_set) b.attr_set,
        attr_del := a.attr_del ++ b.attr_del,
        rel_set := dUpdate (dUpdate [] a.rel_set) b.rel_set,
        rel_del := a.rel_del ++ b.rel_del } := by
  simp [combineSpecs]

theorem cartProd_pair (la lb : List GroupSplitSpec) :
    cartProd [la, lb] = la.flatMap (fun a => lb.map (fun b => [a, b])) := by
  have h1 : cartProd [lb] = lb.map (fun b => [b]) := by
    rw [cartProd]
    induction lb with
    | nil => rfl
    | cons b t ih => rw [List.flatMap_cons, ih, List.map_cons]; rfl
  rw [cartProd, h1]
  refine flatMap_congr_mem _ _ _ (fun a _ => ?_)
  rw [List.map_map]
  rfl

theorem cartProd_pair_map (lx ly : List GroupSplitSpec) :
    (cartProd [lx, ly]).map combineSpecs =
      lx.flatMap (fun a => ly.map (fun b => combineSpecs [a, b])) := by
  rw [cartProd_pair, List.map_flatMap]
  refine flatMap_congr_mem _ _ _ (fun a _ => ?_)
  rw [List.map_map]
  rfl

theorem sum_map_mul_left_q {α : Type} (l : List α) (f : α → ℚ) (r : ℚ) :
    (l.map fun x => r * f x).sum = r * (l.map f).sum := by
  induction l with
  | nil => simp
  | cons a t ih => simp [ih, mul_add]

theorem sum_combine_pair (lx ly : List GroupSplitSpec)
    (hx : (lx.map GroupSplitSpec.p).sum = 1)
    (hy : (ly.map GroupSplitSpec.p).sum = 1) :
    ((lx.flatMap fun a => ly.map fun b => combineSpecs [a, b]).map
      GroupSplitSpec.p).sum = 1 := by
  rw [List.map_flatMap, sum_flatMap_eq]
  have h1 : ∀ a : GroupSplitSpec,
      ((ly.map fun b => combineSpecs [a, b]).map GroupSplitSpec.p).sum = a.p := by
    intro a
    rw [List.map_map]
    have h2 : (ly.map (GroupSplitSpec.p ∘ fun b => combineSpecs [a, b])) =
        ly.map (fun b => a.p * b.p) :=
      List.map_congr_left (fun b _ => by
        rw [Function.comp_apply, combineSpecs_pair])
    rw [h2, sum_map_mul_left_q, hy, mul_one]
  rw [List.map_congr_left (fun a _ => h1 a)]
  exact hx

theorem nonneg_combine_pair (lx ly : List GroupSplitSpec)
    (hx : ∀ s ∈ lx, 0 ≤ s.p) (hy : ∀ s ∈ ly, 0 ≤ s.p) :
    ∀ s ∈ lx.flatMap (fun a => ly.map fun b => combineSpecs [a, b]), 0 ≤ s.p := by
  intro s hs
  rcases List.mem_flatMap.mp hs with ⟨a, ha, hin⟩
  rcases List.mem_map.mp hin with ⟨b, hb, rfl⟩
  have h : (combineSpecs [a, b]).p = a.p * b.p := by rw [combineSpecs_pair]
  rw [h]
  exact mul_nonneg (hx a ha) (hy b hb)

end Pram

namespace Pram

/-- Swapping the two rules in a combined spec leaves the emitted
destination content unchanged, provided the two rules write disjoint
attribute keys and disjoint relation keys. -/
theorem comb_emit_comm (g : SGroup) (a b : GroupSplitSpec)
    (hA2 : ∀ k, dHasKey a.attr_set k = false ∨ dHasKey b.attr_set k = false)
    (hR2 : ∀ k, dHasKey a.rel_set k = false ∨ dHasKey b.rel_set k = false) :
    emitContent g (combineSpecs [b, a]) = emitContent g (combineSpecs [a, b]) := by
  have hp : (combineSpecs [b, a]).p = (combineSpecs [a, b]).p := by
    rw [combineSpecs_pair, combineSpecs_pair]
    exact mul_comm b.p a.p
  have hattr : canonDict (gen_dict g.attr (combineSpecs [b, a]).attr_set
        (combineSpecs [b, a]).attr_del) =
      canonDict (gen_dict g.attr (combineSpecs [a, b]).attr_set
        (combineSpecs [a, b]).attr_del) := by
    rw [combineSpecs_pair, combineSpecs_pair]
    exact canonDict_ext _ _ (fun k => dGet_comb_comm g.attr b.attr_set a.attr_set
      b.attr_del a.attr_del (fun k2 => (hA2 k2).symm) k)
  have hrel : canonDict (gen_dict g.rel (combineSpecs [b, a]).rel_set
        (combineSpecs [b, a]).rel_del) =
      canonDict (gen_dict g.rel (combineSpecs [a, b]).rel_set
        (combineSpecs [a, b]).rel_del) := by
    rw [combineSpecs_pair, combineSpecs_pair]
    exact canonDict_ext _ _ (fun k => dGet_comb_comm g.rel b.rel_set a.rel_set
      b.rel_del a.rel_del (fun k2 => (hR2 k2).symm) k)
  rw [emitContent, emitContent, splitEmitOpt, splitEmitOpt, hp]
  by_cases hz : g.m * (combineSpecs [a, b]).p = 0
  · rw [if_pos hz, if_pos hz]
  · rw [if_neg hz, if_neg hz]
    have hfinal : canonGroup
        { m := g.m * (combineSpecs [a, b]).p,
          attr := gen_dict g.attr (combineSpecs [b, a]).attr_set
            (combineSpecs [b, a]).attr_del,
          rel := gen_dict g.rel (combineSpecs [b, a]).rel_set
            (combineSpecs [b, a]).rel_del } = canonGroup
        { m := g.m * (combineSpecs [a, b]).p,
          attr := gen_dict g.attr (combineSpecs [a, b]).attr_set
            (combineSpecs [a, b]).attr_del,
          rel := gen_dict g.rel (combineSpecs [a, b]).rel_set
            (combineSpecs [a, b]).rel_del } := by
      show (canonDict (gen_dict g.attr (combineSpecs [b, a]).attr_set
          (combineSpecs [b, a]).attr_del),
        canonDict (gen_dict g.rel (combineSpecs [b, a]).rel_set
          (combineSpecs [b, a]).rel_del),
        g.m * (combineSpecs [a, b]).p) =
        (canonDict (gen_dict g.attr (combineSpecs [a, b]).attr_set
          (combineSpecs [a, b]).attr_del),
        canonDict (gen_dict g.rel (combineSpecs [a, b]).rel_set
          (combineSpecs [a, b]).rel_del),
        g.m * (combineSpecs [a, b]).p)
      rw [hattr, hrel]
    exact congrArg some hfinal

theorem flatMap_filterMap_comm_of_ptwise {α β γ : Type} (la : List α)
    (lb : List β) (F : α → β → Option γ) (G : β → α → Option γ)
    (h : ∀ a ∈ la, ∀ b ∈ lb, G b a = F a b) :
    (la.flatMap fun a => lb.filterMap (fun b => F a b)).Perm
      (lb.flatMap fun b => la.filterMap (fun a => G b a)) := by
  have h2 : (lb.flatMap fun b => la.filterMap (fun a => G b a)) =
      (lb.flatMap fun b => la.filterMap (fun a => F a b)) :=
    flatMap_congr_mem _ _ _ (fun b hb =>
      filterMap_congr_mem _ _ _ (fun a ha => h a ha b hb))
  rw [h2]
  exact flatMap_filterMap_transpose la lb F

end Pram

namespace Pram

theorem apply_rules_two (g : SGroup) (R S : Rule) (iter t : ℕ)
    (lr ls : List GroupSplitSpec)
    (h1 : R.is_applicable g iter t = true) (h2 : S.is_applicable g iter t = true)
    (h3 : R.apply g iter t = some lr) (h4 : S.apply g iter t = some ls) :
    SGroup.apply_rules true g [R, S] iter t =
      some (g.split true ((cartProd [lr, ls]).map combineSpecs)) := by
  rw [SGroup.apply_rules]
  simp only [List.filter_cons, List.filter_nil, h1, h2, if_true,
    List.filterMap_cons, List.filterMap_nil, h3, h4, List.isEmpty_cons,
    Bool.false_eq_true, if_false]

/-- C5 (amended): for every group, iteration and time, and every pair of
applicable rules whose split specs have nonnegative probabilities summing
to 1 and whose set-maps write disjoint attribute keys and disjoint
relation keys, `Group.apply_rules` in fractional-mass mode on `[A, B]`
and on `[B, A]` yields destination lists that agree as multisets of
(canonical attributes, canonical relations, mass) contents. -/
theorem apply_rules_order_independent (g : SGroup) (A B : Rule) (iter t : ℕ)
    (la lb : List GroupSplitSpec)
    (hA : A.is_applicable g iter t = true)
    (hB : B.is_applicable g iter t = true)
    (hla : A.apply g iter t = some la)
    (hlb : B.apply g iter t = some lb)
    (hpa : ∀ s ∈ la, 0 ≤ s.p) (hpb : ∀ s ∈ lb, 0 ≤ s.p)
    (hsa : (la.map GroupSplitSpec.p).sum = 1)
    (hsb : (lb.map GroupSplitSpec.p).sum = 1)
    (hdA : ∀ a ∈ la, ∀ b ∈ lb, ∀ k,
      dHasKey a.attr_set k = false ∨ dHasKey b.attr_set k = false)
    (hdR : ∀ a ∈ la, ∀ b ∈ lb, ∀ k,
      dHasKey a.rel_set k = false ∨ dHasKey b.rel_set k = false) :
    ∃ lab lba, SGroup.apply_rules true g [A, B] iter t = some lab ∧
      SGroup.apply_rules true g [B, A] iter t = some lba ∧
      (lab.map canonGroup).Perm (lba.map canonGroup) := by
  refine ⟨g.split true ((cartProd [la, lb]).map combineSpecs),
    g.split true ((cartProd [lb, la]).map combineSpecs),
    apply_rules_two g A B iter t la lb hA hB hla hlb,
    apply_rules_two g B A iter t lb la hB hA hlb hla, ?_⟩
  rw [cartProd_pair_map la lb, cartProd_pair_map lb la]
  rw [split_sum_one_emit g _ (nonneg_combine_pair la lb hpa hpb)
    (sum_combine_pair la lb hsa hsb)]
  rw [split_sum_one_emit g _ (nonneg_combine_pair lb la hpb hpa)
    (sum_combine_pair lb la hsb hsa)]
  have hform : ∀ lx ly : List GroupSplitSpec,
      ((lx.flatMap fun a => ly.map fun b => combineSpecs [a, b]).filterMap
        (splitEmitOpt g)).map canonGroup =
      lx.flatMap (fun a => ly.filterMap (fun b => emitContent g (combineSpecs [a, b]))) := by
    intro lx ly
    rw [List.map_filterMap, filterMap_flatMap_eq]
    refine flatMap_congr_mem _ _ _ (fun a _ => ?_)
    rw [List.filterMap_map]
    rfl
  rw [hform la lb, hform lb la]
  exact flatMap_filterMap_comm_of_ptwise la lb
    (fun a b => emitContent g (combineSpecs [a, b]))
    (fun b a => emitContent g (combineSpecs [b, a]))
    (fun a ha b hb => comb_emit_comm g a b (hdA a ha b hb) (hdR a ha b hb))

end Pram

namespace Pram

/-! Concrete two-rule instance: rule Aw splits on attribute `x` with
probabilities 1/2 and 1/2, rule Bw sets attribute `y` with probability
1. -/

def lawC5 : List GroupSplitSpec :=
  [⟨1/2, [("x", Val.vI 1)], [], [], []⟩, ⟨1/2, [("x", Val.vI 2)], [], [], []⟩]

def lbwC5 : List GroupSplitSpec := [⟨1, [("y", Val.vI 1)], [], [], []⟩]

def ruleAw : Rule := ⟨fun _ _ _ => true, fun _ _ _ => some lawC5⟩

def ruleBw : Rule := ⟨fun _ _ _ => true, fun _ _ _ => some lbwC5⟩

def gC5w : SGroup := ⟨2, [], [], false, none⟩

theorem apply_rules_order_independent_witness :
    ((lawC5.map GroupSplitSpec.p).sum = 1 ∧ (lbwC5.map GroupSplitSpec.p).sum = 1) ∧
    (∃ lab lba, SGroup.apply_rules true gC5w [ruleAw, ruleBw] 0 0 = some lab ∧
      SGroup.apply_rules true gC5w [ruleBw, ruleAw] 0 0 = some lba ∧
      (lab.map canonGroup).Perm (lba.map canonGroup)) := by
  have hsa : (lawC5.map GroupSplitSpec.p).sum = 1 := by
    norm_num [lawC5, List.map_cons, List.map_nil, List.sum_cons, List.sum_nil]
  have hsb : (lbwC5.map GroupSplitSpec.p).sum = 1 := by
    norm_num [lbwC5, List.map_cons, List.map_nil, List.sum_cons, List.sum_nil]
  refine ⟨⟨hsa, hsb⟩, ?_⟩
  refine apply_rules_order_independent gC5w ruleAw ruleBw 0 0 lawC5 lbwC5
    rfl rfl rfl rfl ?_ ?_ hsa hsb ?_ ?_
  · intro s hs
    rw [lawC5] at hs
    fin_cases hs <;> norm_num
  · intro s hs
    rw [lbwC5] at hs
    fin_cases hs <;> norm_num
  · intro a ha b hb k
    rw [lbwC5] at hb
    fin_cases hb
    by_cases hy : ("y" : String) = k
    · rw [lawC5] at ha
      refine Or.inl ?_
      fin_cases ha <;> rw [← hy] <;> decide
    · refine Or.inr ?_
      rw [dHasKey_cons, if_neg hy]
      rfl
  · intro a ha b hb k
    rw [lbwC5] at hb
    fin_cases hb
    exact Or.inr rfl

end Pram

namespace Pram

/-! ## `Group.gen_hash` (entity.py:1477-1514)

`gen_hash(attr, rel)` returns
`xxhash.xxh64(pickle.dumps((attr, rel))).intdigest()`.  `pickle` and
`xxhash` are external dependencies, so they are modelled here: `pickle`
by the byte format it emits (protocol 4, the default of the Python
versions the snapshot targets) for tuples of string-keyed dicts with
string or small-int values, and `xxh64` by the full XXH64 algorithm over
natural numbers reduced mod 2^64.  Both models are validated below
against published reference values (the XXH64 test vectors for the
empty, 3-byte and 43-byte inputs, and byte-exact `pickle.dumps` output
for the dictionaries of tests.py line 63). -/

def M64 : Nat := 18446744073709551616

def P1x : Nat := 11400714785074694791

def P2x : Nat := 14029467366897019727

def P3x : Nat := 1609587929392839161

def P4x : Nat := 9650029242287828579

def P5x : Nat := 2870177450012600261

/-- Left rotation of a 64-bit value (`0 < r < 64`, `x < 2^64`). -/
def rotl64 (x r : Nat) : Nat := (x * 2 ^ r) % M64 + x / 2 ^ (64 - r)

/-- Little-endian word from a byte list (first 8 bytes). -/
def bytesToLE : List Nat → Nat
  | [] => 0
  | b :: t => b + 256 * bytesToLE t

def le64 (l : List Nat) : Nat := bytesToLE (l.take 8)

def le32 (l : List Nat) : Nat := bytesToLE (l.take 4)

def xxRound (acc inp : Nat) : Nat :=
  (rotl64 ((acc + inp * P2x) % M64) 31 * P1x) % M64

def xxMerge (acc val : Nat) : Nat :=
  ((Nat.xor acc (xxRound 0 val)) * P1x + P4x) % M64

/-- The 32-byte block loop of XXH64, with fuel for kernel evaluation
(fuel `≥ length/32` makes it exact). -/
def xxBlocksF : Nat → Nat × Nat × Nat × Nat → List Nat →
    (Nat × Nat × Nat × Nat) × List Nat
  | 0, v, l => (v, l)
  | f + 1, v, l =>
    if 32 ≤ l.length then
      xxBlocksF f
        (xxRound v.1 (le64 l),
         xxRound v.2.1 (le64 (l.drop 8)),
         xxRound v.2.2.1 (le64 (l.drop 16)),
         xxRound v.2.2.2 (le64 (l.drop 24)))
        (l.drop 32)
    else (v, l)

/-- The 8-byte tail loop of XXH64, with fuel. -/
def xxTail8F : Nat → Nat → List Nat → Nat × List Nat
  | 0, h, l => (h, l)
  | f + 1, h, l =>
    if 8 ≤ l.length then
      xxTail8F f ((rotl64 (Nat.xor h (xxRound 0 (le64 l))) 27 * P1x + P4x) % M64)
        (l.drop 8)
    else (h, l)

/-- The byte-at-a-time tail loop of XXH64. -/
def xxTail1 (h : Nat) : List Nat → Nat
  | [] => h
  | b :: t => xxTail1 ((rotl64 (Nat.xor h ((b * P5x) % M64)) 11 * P1x) % M64) t

def xxAvalanche (h0 : Nat) : Nat :=
  let h1 := (Nat.xor h0 (h0 / 2 ^ 33) * P2x) % M64
  let h2 := (Nat.xor h1 (h1 / 2 ^ 29) * P3x) % M64
  Nat.xor h2 (h2 / 2 ^ 32)

/-- Modelled from the spec: the deterministic digest `xxhash.xxh64` —
the XXH64 algorithm (seeded accumulators over 32-byte blocks, converge,
8/4/1-byte tails, avalanche), over naturals mod 2^64. -/
def xxh64 (data : List Nat) (seed : Nat) : Nat :=
  let n := data.length
  let hr :=
    if 32 ≤ n then
      let v0 := ((seed + P1x + P2x) % M64, (seed + P2x) % M64, seed % M64,
        (seed + (M64 - P1x)) % M64)
      let vr := xxBlocksF n v0 data
      let v := vr.1
      let h := (rotl64 v.1 1 + rotl64 v.2.1 7 + rotl64 v.2.2.1 12 +
        rotl64 v.2.2.2 18) % M64
      (xxMerge (xxMerge (xxMerge (xxMerge h v.1) v.2.1) v.2.2.1) v.2.2.2, vr.2)
    else ((seed + P5x) % M64, data)
  let h1 := (hr.1 + n) % M64
  let tr := xxTail8F n h1 hr.2
  let fr :=
    if 4 ≤ tr.2.length then
      ((rotl64 (Nat.xor tr.1 ((le32 tr.2 * P1x) % M64)) 23 * P2x + P3x) % M64,
        tr.2.drop 4)
    else tr
  xxAvalanche (xxTail1 fr.1 fr.2)

/-- UTF-8 bytes of an ASCII string (all keys and values in the embedding
are ASCII, where UTF-8 coincides with the code points). -/
def strBytes (s : String) : List Nat := s.data.map (fun c => c.toNat)

/-- `SHORT_BINUNICODE` + length + bytes + `MEMOIZE` — how protocol-4
pickle serializes a short string. -/
def pickleStr (s : String) : List Nat :=
  140 :: (strBytes s).length :: (strBytes s ++ [148])

/-- Pickle serialization of an embedded value: strings via
`SHORT_BINUNICODE`, small nonnegative ints via `BININT1`; other shapes
are outside the modelled fragment. -/
def pickleVal : Val → Option (List Nat)
  | Val.vS s => some (pickleStr s)
  | Val.vI n => if 0 ≤ n ∧ n < 256 then some [75, n.toNat] else none
  | _ => none

def pickleItems : Dict → Option (List Nat)
  | [] => some []
  | (k, v) :: t =>
    match pickleVal v, pickleItems t with
    | some bv, some bt => some (pickleStr k ++ bv ++ bt)
    | _, _ => none

/-- `EMPTY_DICT`+`MEMOIZE`, then the items in insertion order: a single
item via `SETITEM`, two or more via `MARK`…`SETITEMS` — exactly the
batching pickle uses. -/
def pickleDict : Dict → Option (List Nat)
  | [] => some [125, 148]
  | [(k, v)] => (pickleVal v).map (fun bv => 125 :: 148 :: (pickleStr k ++ bv ++ [115]))
  | d => (pickleItems d).map (fun items => 125 :: 148 :: 40 :: (items ++ [117]))

def u64le (n : Nat) : List Nat :=
  [n % 256, n / 256 % 256, n / 65536 % 256, n / 16777216 % 256,
   n / 4294967296 % 256, n / 1099511627776 % 256,
   n / 281474976710656 % 256, n / 72057594037927936 % 256]

/-- Modelled from the spec: `pickle.dumps((attr, rel))` at protocol 4 —
`PROTO 4`, `FRAME` with the little-endian payload length, the two dicts
in insertion order, `TUPLE2`, `MEMOIZE`, `STOP`. -/
def pickleDumpsPair (attr rel : Dict) : Option (List Nat) :=
  match pickleDict attr, pickleDict rel with
  | some ba, some bb =>
    let payload := ba ++ bb ++ [134, 148, 46]
    some (128 :: 4 :: 149 :: (u64le payload.length ++ payload))
  | _, _ => none

/-- `Group.gen_hash(attr, rel)` (entity.py:1477-1514):
`xxhash.xxh64(pickle.dumps((attr, rel))).intdigest()`, on the modelled
fragment of pickle. -/
def gen_hash (attr rel : Dict) : Option Nat :=
  (pickleDumpsPair attr rel).map (fun bytes => xxh64 bytes 0)

/-! Validation of the models against published reference values. -/

theorem xxh64_vector_nil : xxh64 [] 0 = 17241709254077376921 := by decide

theorem xxh64_vector_abc : xxh64 (strBytes "abc") 0 = 4952883123889572249 := by
  decide

theorem xxh64_vector_fox :
    xxh64 (strBytes "The quick brown fox jumps over the lazy dog") 0 =
      802816344064684476 := by decide

/-- The attribute dict of tests.py:63, in its two insertion orders. -/
def d1C4 : Dict := [("sex", Val.vS "f"), ("income", Val.vS "l")]

def d2C4 : Dict := [("income", Val.vS "l"), ("sex", Val.vS "f")]

theorem pickle_d1_eval : pickleDumpsPair d1C4 [] =
    some [128, 4, 149, 32, 0, 0, 0, 0, 0, 0, 0, 125, 148, 40, 140, 3, 115, 101,
      120, 148, 140, 1, 102, 148, 140, 6, 105, 110, 99, 111, 109, 101, 148, 140,
      1, 108, 148, 117, 125, 148, 134, 148, 46] := by decide

theorem pickle_d2_eval : pickleDumpsPair d2C4 [] =
    some [128, 4, 149, 32, 0, 0, 0, 0, 0, 0, 0, 125, 148, 40, 140, 6, 105, 110,
      99, 111, 109, 101, 148, 140, 1, 108, 148, 140, 3, 115, 101, 120, 148, 140,
      1, 102, 148, 117, 125, 148, 134, 148, 46] := by decide

/-- C4: refuted — the attribute maps `{sex: f, income: l}` and
`{income: l, sex: f}` are equal as maps (Python `==`, here `dEqMap`),
yet `Group.gen_hash` digests the pickle serialization, which lists items
in insertion order, so the two orders hash differently. -/
theorem gen_hash_order_sensitive :
    dEqMap d1C4 d2C4 = true ∧ d1C4 ≠ d2C4 ∧
      gen_hash d1C4 [] ≠ gen_hash d2C4 [] ∧
      gen_hash d1C4 [] = some 16840979334739083581 ∧
      gen_hash d2C4 [] = some 9472429063144797982 := by decide

end Pram

namespace Pram

/-! ## `add_group` on content-equal groups in different insertion orders

`add_group` looks the incoming group up by `group.get_hash()`
(pop.py:147-150), the pickle-based `gen_hash`, which depends on dict
insertion order (the C4 section).  So two groups with equal
attribute/relation *content* but different insertion orders miss each
other's key and both get registered. -/

def gR1 : SGroup := { m := 100, attr := d1C4 }

def gR2 : SGroup := { m := 50, attr := d2C4 }

/-- C3: refuted — adding a group with attributes
`{'sex': 'f', 'income': 'l'}` (mass 100) and then one with the same
content in the other insertion order (mass 50) to an empty population
registers *two* groups, one per insertion order, with masses 100 and 50
never merged: the population is keyed by `group.get_hash()`, the
order-sensitive pickle digest (the two real digests differ, third
conjunct), although the two attribute dicts are equal as maps (Python
`==`, first conjunct) and `add_group`'s own docstring says groups are
identical when their attributes and relations are equal. -/
theorem add_group_reordered_not_merged :
    dEqMap gR1.attr gR2.attr = true ∧
    gR1.attr ≠ gR2.attr ∧
    gen_hash gR1.attr gR1.rel ≠ gen_hash gR2.attr gR2.rel ∧
    (addGroup (addGroup {} gR1) gR2).groups.length = 2 ∧
    countKey (addGroup (addGroup {} gR1) gR2).groups gR1.key = 1 ∧
    countKey (addGroup (addGroup {} gR1) gR2).groups gR2.key = 1 ∧
    massAt (addGroup (addGroup {} gR1) gR2).groups gR1.key = gR1.m ∧
    massAt (addGroup (addGroup {} gR1) gR2).groups gR2.key = gR2.m ∧
    (addGroup (addGroup {} gR1) gR2).m = gR1.m + gR2.m := by
  refine ⟨by decide, by decide, by decide, by decide, by decide, by decide,
    ?_, ?_, ?_⟩
  · norm_num +decide [addGroup, plookup, pBumpMass, massAt, countKey, gR1, gR2,
      d1C4, d2C4, SGroup.key, SGroup.freeze, List.find?, List.filter_cons,
      List.filter_nil]
  · norm_num +decide [addGroup, plookup, pBumpMass, massAt, countKey, gR1, gR2,
      d1C4, d2C4, SGroup.key, SGroup.freeze, List.find?, List.filter_cons,
      List.filter_nil]
  · norm_num +decide [addGroup, plookup, gR1, gR2, d1C4, d2C4, SGroup.key,
      List.find?]

end Pram
